import Mathlib

/-!
Verification of the terraform-provider-jira-automation core logic.

This file shallowly embeds the JSON data model and the pure logic of the
provider (alias resolution, the trigger and component codecs, the
read-modify-write merge of `UpdateRule`, the normalization canonicalizer,
and the destroy-by-disable protocol) and proves or refutes the frozen
claims about them.

Modelling conventions:
- Decoded Go `interface{}` JSON trees are the mutual inductive `Json` /
  `JsonList` / `JsonFields` below; a Go `map[string]interface{}` is a
  `JsonFields` association list read with first-match lookup (Go maps have
  unique keys, so first-match agrees with Go on every reachable value).
- `encoding/json.Unmarshal` into `interface{}` turns every JSON number into
  a `float64`; `decodeJson` models that step for integer-valued numbers via
  `roundInt` (round to nearest, ties to even, at 53 significand bits).
- `encoding/json.Marshal` emits object keys in sorted order; `sortKeysJson`
  models the reordering and `renderJson` the serialization.
- Fallible Go functions returning `(T, error)` become `Except String T`.
-/

-- A decoded JSON value (Go `interface{}` after `json.Unmarshal`).
mutual
inductive Json where
  | null : Json
  | bool : Bool → Json
  | num : Int → Json
  | str : String → Json
  | arr : JsonList → Json
  | obj : JsonFields → Json

inductive JsonList where
  | nil : JsonList
  | cons : Json → JsonList → JsonList

inductive JsonFields where
  | nil : JsonFields
  | cons : String → Json → JsonFields → JsonFields
end

deriving instance DecidableEq for Json

deriving instance DecidableEq for JsonList

deriving instance DecidableEq for JsonFields

deriving instance Repr for Json

/-- Length of a `JsonList`. -/
def JsonList.length : JsonList → Nat
  | .nil => 0
  | .cons _ xs => 1 + xs.length

/-- Append two `JsonList`s. -/
def JsonList.append : JsonList → JsonList → JsonList
  | .nil, ys => ys
  | .cons x xs, ys => .cons x (xs.append ys)

/-- `JsonList` from a `List Json`. -/
def JsonList.ofList : List Json → JsonList
  | [] => .nil
  | x :: xs => .cons x (JsonList.ofList xs)

/-- `List Json` from a `JsonList`. -/
def JsonList.toList : JsonList → List Json
  | .nil => []
  | .cons x xs => x :: xs.toList

/-- First-match lookup in a JSON object, as Go map indexing. -/
def JsonFields.lookup : JsonFields → String → Option Json
  | .nil, _ => none
  | .cons k v rest, key => if k = key then some v else rest.lookup key

/-- Remove every binding of `key` (Go `delete(m, key)`). -/
def JsonFields.eraseKey (key : String) : JsonFields → JsonFields
  | .nil => .nil
  | .cons k v rest => if k = key then rest.eraseKey key else .cons k v (rest.eraseKey key)

/-- Append two field lists. -/
def JsonFields.append : JsonFields → JsonFields → JsonFields
  | .nil, ys => ys
  | .cons k v rest, ys => .cons k v (rest.append ys)

/-- Go map assignment `m[key] = v`: the old binding (if any) is replaced.
Where the binding sits in the list is unobservable through `lookup` and
irrelevant after key-sorting, so the new binding goes at the end. -/
def JsonFields.setKey (key : String) (v : Json) (m : JsonFields) : JsonFields :=
  (m.eraseKey key).append (.cons key v .nil)

/-- A Go `map[string]string`, as an association list with first-match lookup. -/
abbrev ArgMap := List (String × String)

/-- First-match lookup (`v, ok := m[k]`). -/
def lookupArg : ArgMap → String → Option String
  | [], _ => none
  | (k, v) :: rest, key => if k = key then some v else lookupArg rest key

/-- Go map indexing `m[k]`, which yields `""` for a missing key. -/
def getArg (m : ArgMap) (key : String) : String := (lookupArg m key).getD ""

-- ## strings.ReplaceAll

/-- Left-to-right, non-overlapping replacement of `pat` by `rep` on character
lists: `strings.ReplaceAll` for a non-empty pattern (every pattern this
program replaces starts with the non-empty literal `"{{"`). -/
def replaceCharsAux (pat rep : List Char) : Nat → List Char → List Char
  | 0, s => s
  | _ + 1, [] => []
  | fuel + 1, c :: rest =>
    if pat ≠ [] ∧ pat.isPrefixOf (c :: rest) then
      rep ++ replaceCharsAux pat rep fuel ((c :: rest).drop pat.length)
    else
      c :: replaceCharsAux pat rep fuel rest

/-- The replacement with enough fuel for the whole input (each step consumes
at least one input character, so the input's length suffices). -/
def replaceCharList (pat rep s : List Char) : List Char :=
  replaceCharsAux pat rep s.length s

/-- `strings.ReplaceAll` on strings. -/
def replaceStr (s pat rep : String) : String := ⟨replaceCharList pat.data rep.data s.data⟩

-- ## Field alias resolution (internal/provider/component.go)

/-- `replaceSmartValueField`: replaces `{{issue.OLD...}}` and
`{{triggerIssue.OLD...}}` with the new field name. -/
def replaceSmartValueField (s oldField newField : String) : String :=
  let s1 := replaceStr s ("\x7b\x7bissue." ++ oldField) ("\x7b\x7bissue." ++ newField)
  replaceStr s1 ("\x7b\x7btriggerIssue." ++ oldField) ("\x7b\x7btriggerIssue." ++ newField)

/-- `sortedKeys`: map keys sorted by length descending (longest first).
The Go code uses an unstable `sort.Slice` with comparator `len(a) > len(b)`;
among equal-length keys any order may come out, and every theorem below is
insensitive to that choice, so the model fixes the stable insertion sort. -/
def sortedKeys (m : ArgMap) : List String :=
  List.insertionSort (fun a b => b.length ≤ a.length) (m.map Prod.fst)

/-- The per-value body of `resolveAliases`: smart-value replacement for every
alias (longest first), then the bare whole-value replacement. -/
def resolveValue (aliases : ArgMap) (v : String) : String :=
  let resolved := (sortedKeys aliases).foldl
    (fun s nm => replaceSmartValueField s nm (getArg aliases nm)) v
  match lookupArg aliases resolved with
  | some id => id
  | none => resolved

/-- `resolveAliases`: replaces alias names with field IDs in arg values.
Keys are untouched; with an empty table the input map itself is returned. -/
def resolveAliases (args aliases : ArgMap) : ArgMap :=
  if aliases = [] then args
  else args.map (fun kv => (kv.1, resolveValue aliases kv.2))

/-- The per-value body of `unresolveAliases` (field IDs back to aliases). -/
def unresolveValue (reverse : ArgMap) (v : String) : String :=
  let resolved := (sortedKeys reverse).foldl
    (fun s fieldID => replaceSmartValueField s fieldID (getArg reverse fieldID)) v
  match lookupArg reverse resolved with
  | some nm => nm
  | none => resolved

/-- `unresolveAliases`: the reverse direction, driven by a fieldID→alias table. -/
def unresolveAliases (args reverse : ArgMap) : ArgMap :=
  if reverse = [] then args
  else args.map (fun kv => (kv.1, unresolveValue reverse kv.2))

/-- The table inversion performed by `client.New`: `reverse[fieldID] = alias`
for every pair. (For the injective tables the claims quantify over, first-match
lookup on the flipped list agrees with the Go map.) -/
def invertAliases (aliases : ArgMap) : ArgMap := aliases.map (fun kv => (kv.2, kv.1))

-- ## Object-literal helpers

/-- `JsonFields` from a list of pairs (Go map literals, written in source order;
key order is unobservable through `lookup` and is sorted away on marshal). -/
def JsonFields.ofList : List (String × Json) → JsonFields
  | [] => .nil
  | (k, v) :: rest => .cons k v (JsonFields.ofList rest)

/-- A JSON object literal. -/
def Json.mkObj (l : List (String × Json)) : Json := .obj (JsonFields.ofList l)

/-- A JSON array literal. -/
def Json.mkArr (l : List Json) : Json := .arr (JsonList.ofList l)

-- ## Trigger codec (internal/provider, `status_transition`)

/-- `buildStatusTransition`: the full API trigger JSON for a status
transition, requiring non-empty `from_status` and `to_status`. -/
def buildStatusTransition (args : ArgMap) (cloudID projectID : String) : Except String Json :=
  let fromStatus := getArg args "from_status"
  let toStatus := getArg args "to_status"
  if fromStatus = "" ∨ toStatus = "" then
    .error "status_transition requires from_status and to_status args"
  else
    .ok (Json.mkObj [
      ("component", .str "TRIGGER"),
      ("conditions", Json.mkArr []),
      ("connectionId", .null),
      ("schemaVersion", .num 1),
      ("type", .str "jira.issue.event.trigger:transitioned"),
      ("value", Json.mkObj [
        ("eventFilters", Json.mkArr [.str ("ari:cloud:jira:" ++ cloudID ++ ":project/" ++ projectID)]),
        ("eventKey", .str "jira:issue_updated"),
        ("issueEvent", .str "issue_generic"),
        ("fromStatus", Json.mkArr [Json.mkObj [("type", .str "NAME"), ("value", .str fromStatus)]]),
        ("toStatus", Json.mkArr [Json.mkObj [("type", .str "NAME"), ("value", .str toStatus)]])
      ])
    ])

/-- `BuildTriggerJSON`: registry dispatch; `status_transition` is the only
registered trigger kind. -/
def BuildTriggerJSON (triggerType : String) (args : ArgMap) (cloudID projectID : String) :
    Except String Json :=
  if triggerType = "status_transition" then
    buildStatusTransition args cloudID projectID
  else
    .error ("unknown trigger type: " ++ triggerType)

/-- `json.Unmarshal` of one from/to status entry into `struct{Value string}`:
a JSON object (reading its `value` string, `""` when absent) or `null`;
anything else is a decode error. -/
def parseStatusEntry (j : Json) : Except String String :=
  match j with
  | .null => .ok ""
  | .obj kvs =>
    match kvs.lookup "value" with
    | none => .ok ""
    | some .null => .ok ""
    | some (.str s) => .ok s
    | some _ => .error "parsing status_transition: cannot unmarshal value"
  | _ => .error "parsing status_transition: cannot unmarshal status entry"

/-- `json.Unmarshal` of a `fromStatus`/`toStatus` slice. -/
def parseStatusList : Json → Except String (List String)
  | .null => .ok []
  | .arr xs => go xs
  | _ => .error "parsing status_transition: cannot unmarshal status list"
where
  go : JsonList → Except String (List String)
  | .nil => .ok []
  | .cons x xs => do
    let v ← parseStatusEntry x
    let rest ← go xs
    .ok (v :: rest)

/-- `parseStatusTransition`: extracts `from_status`/`to_status` from the first
elements of the `value.fromStatus` / `value.toStatus` arrays. -/
def parseStatusTransition (raw : Json) : Except String ArgMap :=
  match raw with
  | .null => .ok []
  | .obj kvs =>
    match kvs.lookup "value" with
    | none => .ok []
    | some .null => .ok []
    | some (.obj v) => do
      let fromL ← parseStatusList ((v.lookup "fromStatus").getD .null)
      let toL ← parseStatusList ((v.lookup "toStatus").getD .null)
      let args₁ : ArgMap := match fromL with
        | [] => []
        | f :: _ => [("from_status", f)]
      let args₂ : ArgMap := match toL with
        | [] => []
        | t :: _ => [("to_status", t)]
      .ok (args₁ ++ args₂)
    | some _ => .error "parsing status_transition: cannot unmarshal value object"
  | _ => .error "parsing status_transition: cannot unmarshal trigger"

/-- `json.Unmarshal` of a JSON value into `struct{Type string}` reading the
`type` tag (`""` when absent or null). -/
def parseTypeTag (raw : Json) : Except String String :=
  match raw with
  | .null => .ok ""
  | .obj kvs =>
    match kvs.lookup "type" with
    | none => .ok ""
    | some .null => .ok ""
    | some (.str t) => .ok t
    | some _ => .error "cannot unmarshal type tag"
  | _ => .error "cannot unmarshal envelope"

/-- `ParseTrigger`: extracts the user-facing type and args from API trigger
JSON; unregistered type tags are an error. -/
def ParseTrigger (raw : Json) : Except String (String × ArgMap) := do
  let t ← parseTypeTag raw
  if t = "jira.issue.event.trigger:transitioned" then do
    let args ← parseStatusTransition raw
    .ok ("status_transition", args)
  else
    .error ("unrecognized API trigger type: " ++ t)

-- ## Rule update merge (internal/client/client.go)

-- `stripComponentIDs` recursively removes `id`, nulls `parentId` and
-- `conditionParentId`, and recurses into the `children` and `conditions`
-- arrays. The Go code edits each map before recursing into its arrays; the
-- edited keys are disjoint from `children`/`conditions`, so recursing first
-- (which the structural model needs) produces the same tree.
mutual
def stripComponentIDs : Json → Json
  | .obj kvs =>
    .obj ((((stripCIDFields kvs).eraseKey "id").setKey "parentId" Json.null).setKey
      "conditionParentId" Json.null)
  | j => j

def stripCIDFields : JsonFields → JsonFields
  | .nil => .nil
  | .cons k v rest =>
    .cons k (if k = "children" ∨ k = "conditions" then stripCIDChild v else v)
      (stripCIDFields rest)

def stripCIDChild : Json → Json
  | .arr xs => .arr (stripCIDList xs)
  | v => v

def stripCIDList : JsonList → JsonList
  | .nil => .nil
  | .cons x xs => .cons (stripComponentIDs x) (stripCIDList xs)
end

/-- Steps 2–4 of `UpdateRule`: drop the read-only `uuid`/`created`/`updated`
fields of the fetched rule, then merge the caller's name, ID-stripped trigger
and ID-stripped components over it. -/
def mergedRuleMap (fetched : JsonFields) (name : String) (trigger : Json)
    (components : JsonList) : JsonFields :=
  let m1 := ((fetched.eraseKey "uuid").eraseKey "created").eraseKey "updated"
  let m2 := m1.setKey "name" (Json.str name)
  let m3 := m2.setKey "trigger" (stripComponentIDs trigger)
  m3.setKey "components" (Json.arr (stripCIDList components))

/-- The body of the PUT issued by `UpdateRule`: the merged rule map wrapped in
the single-key `{"rule": ...}` envelope. -/
def updateRulePayload (fetched : JsonFields) (name : String) (trigger : Json)
    (components : JsonList) : Json :=
  Json.obj (.cons "rule" (.obj (mergedRuleMap fetched name trigger components)) .nil)

-- ## Float64 number decoding (encoding/json into `interface{}`)

/-- Fuel-driven floor of log₂ (the fuel bounds recursion depth; `floorLog2`
passes `n` itself, always enough). -/
def log2F : Nat → Nat → Nat
  | 0, _ => 0
  | fuel + 1, n => if n ≤ 1 then 0 else log2F fuel (n / 2) + 1

/-- `floorLog2 n` is the exponent of the highest set bit of `n` (0 for 0/1). -/
def floorLog2 (n : Nat) : Nat := log2F n n

/-- Round a natural number to the nearest `float64`-representable integer
(round to nearest, ties to even, 53-bit significand). Values up to `2^53` are
exact. The model covers magnitudes below the float64 overflow threshold,
which is every number a decoded rule JSON can carry. -/
def roundAt (n e : Nat) : Nat :=
  if 2 ^ (e - 1) < n % 2 ^ e ∨ (n % 2 ^ e = 2 ^ (e - 1) ∧ (n / 2 ^ e) % 2 = 1) then
    (n / 2 ^ e + 1) * 2 ^ e
  else
    (n / 2 ^ e) * 2 ^ e

def roundNat (n : Nat) : Nat :=
  if n ≤ 2 ^ 53 then n else roundAt n (floorLog2 n - 52)

/-- `roundNat` extended to integers by sign. -/
def roundInt (i : Int) : Int :=
  if i < 0 then -(roundNat i.natAbs : Int) else (roundNat i.natAbs : Int)

-- `encoding/json.Unmarshal` into `interface{}` decodes every JSON number as a
-- `float64`; `decodeJson` applies that conversion to each (integer-valued)
-- number of the token tree and leaves all structure intact.
mutual
def decodeJson : Json → Json
  | .num n => .num (roundInt n)
  | .arr xs => .arr (decodeList xs)
  | .obj kvs => .obj (decodeFields kvs)
  | j => j

def decodeList : JsonList → JsonList
  | .nil => .nil
  | .cons x xs => .cons (decodeJson x) (decodeList xs)

def decodeFields : JsonFields → JsonFields
  | .nil => .nil
  | .cons k v rest => .cons k (decodeJson v) (decodeFields rest)
end

-- ## Canonicalizer (internal/provider/rule_resource.go)

-- `stripAPIFields` recursively removes `id`, `parentId` and
-- `conditionParentId` from component JSON, recursing into the `children` and
-- `conditions` arrays of each object; non-object values are returned as is.
-- (As with `stripComponentIDs`, deleting before or after the recursion is the
-- same tree because the deleted keys are not the recursed-into keys.)
mutual
def stripAPIFields : Json → Json
  | .obj kvs =>
    .obj ((((stripAPIEntries kvs).eraseKey "id").eraseKey "parentId").eraseKey
      "conditionParentId")
  | j => j

def stripAPIEntries : JsonFields → JsonFields
  | .nil => .nil
  | .cons k v rest =>
    .cons k (if k = "children" ∨ k = "conditions" then stripAPIChild v else v)
      (stripAPIEntries rest)

def stripAPIChild : Json → Json
  | .arr xs => .arr (stripAPIList xs)
  | v => v

def stripAPIList : JsonList → JsonList
  | .nil => .nil
  | .cons x xs => .cons (stripAPIFields x) (stripAPIList xs)
end

/-- Code-point lexicographic comparison of character lists; for UTF-8 data
this is exactly the byte-wise `<=` Go's `sort.Strings` uses on keys. -/
def charListLe : List Char → List Char → Bool
  | [], _ => true
  | _ :: _, [] => false
  | c :: cs, d :: ds =>
    if c.toNat < d.toNat then true
    else if d.toNat < c.toNat then false
    else charListLe cs ds

/-- Byte-order `<=` on strings. -/
def strLe (a b : String) : Bool := charListLe a.data b.data

/-- Insert a field before the first key that is not `<=` it (stable insertion
step of `encoding/json.Marshal`'s key sorting). -/
def insertField (k : String) (v : Json) : JsonFields → JsonFields
  | .nil => .cons k v .nil
  | .cons k' v' rest =>
    if strLe k k' then .cons k v (.cons k' v' rest) else .cons k' v' (insertField k v rest)

/-- Sort an object's fields by key (`encoding/json.Marshal` emits map keys in
sorted byte order, which for UTF-8 agrees with code-point order). -/
def sortFields : JsonFields → JsonFields
  | .nil => .nil
  | .cons k v rest => insertField k v (sortFields rest)

-- Recursively sort every object's keys, modelling the ordering
-- `encoding/json.Marshal` applies at serialization time.
mutual
def sortKeysJson : Json → Json
  | .arr xs => .arr (sortKeysList xs)
  | .obj kvs => .obj (sortFields (sortKeysFields kvs))
  | j => j

def sortKeysList : JsonList → JsonList
  | .nil => .nil
  | .cons x xs => .cons (sortKeysJson x) (sortKeysList xs)

def sortKeysFields : JsonFields → JsonFields
  | .nil => .nil
  | .cons k v rest => .cons k (sortKeysJson v) (sortKeysFields rest)
end

-- ## JSON serialization (encoding/json.Marshal)

/-- Lowercase hex digit. -/
def hexDigit (n : Nat) : Char :=
  if n < 10 then Char.ofNat (48 + n) else Char.ofNat (97 + (n - 10))

/-- `\u00XX`-style escape used by Go's encoder. -/
def uEscape (n : Nat) : List Char :=
  ['\\', 'u', hexDigit (n / 4096 % 16), hexDigit (n / 256 % 16),
   hexDigit (n / 16 % 16), hexDigit (n % 16)]

/-- Go's JSON string escaping (with the default HTML escaping of `<`, `>`,
`&`). -/
def escapeChar (c : Char) : List Char :=
  if c = '"' then ['\\', '"']
  else if c = '\\' then ['\\', '\\']
  else if c = '\n' then ['\\', 'n']
  else if c = '\r' then ['\\', 'r']
  else if c = '\t' then ['\\', 't']
  else if c = '<' ∨ c = '>' ∨ c = '&' then uEscape c.toNat
  else if c.toNat < 32 then uEscape c.toNat
  else if c.toNat = 8232 ∨ c.toNat = 8233 then uEscape c.toNat
  else [c]

/-- Escape a whole string. -/
def escapeString (s : String) : String := ⟨(s.data.map escapeChar).flatten⟩

/-- Decimal digits of a natural number (fuel-driven so the kernel can
evaluate it; `natDec` supplies ample fuel). -/
def natDecAux : Nat → Nat → List Char
  | 0, _ => []
  | fuel + 1, n =>
    if n < 10 then [Char.ofNat (48 + n)]
    else natDecAux fuel (n / 10) ++ [Char.ofNat (48 + n % 10)]

/-- Decimal rendering of a natural number. -/
def natDec (n : Nat) : String := ⟨natDecAux (n + 1) n⟩

/-- Decimal rendering of an integer (Go prints integral `float64` values of
magnitude below `1e21` as plain decimal integers). -/
def intDec (i : Int) : String := if i < 0 then "-" ++ natDec i.natAbs else natDec i.natAbs

-- JSON serialization of a decoded tree: Go's `json.Marshal` modulo the key
-- sorting, which `sortKeysJson` performs beforehand.
mutual
def renderJson : Json → String
  | .null => "null"
  | .bool b => if b then "true" else "false"
  | .num n => intDec n
  | .str s => "\"" ++ escapeString s ++ "\""
  | .arr xs => "[" ++ renderList xs ++ "]"
  | .obj kvs => "\x7b" ++ renderFields kvs ++ "\x7d"

def renderList : JsonList → String
  | .nil => ""
  | .cons x .nil => renderJson x
  | .cons x (.cons y ys) => renderJson x ++ "," ++ renderList (.cons y ys)

def renderFields : JsonFields → String
  | .nil => ""
  | .cons k v .nil => "\"" ++ escapeString k ++ "\":" ++ renderJson v
  | .cons k v (.cons k' v' rest) =>
    "\"" ++ escapeString k ++ "\":" ++ renderJson v ++ "," ++
      renderFields (.cons k' v' rest)
end

/-- The value-level content of the canonical form: decode (numbers through
float64), strip the API-assigned fields, sort every object's keys. -/
def canonJson (j : Json) : Json := sortKeysJson (stripAPIFields (decodeJson j))

/-- `normalizeRawJSON`: round-trip raw JSON through `interface{}` (decode,
strip API fields, marshal with sorted keys) producing the canonical string. -/
def normalizeRawJSON (raw : Json) : String := renderJson (canonJson raw)

/-- Per-element canonical content of `normalizeRawJSONArray`. -/
def canonJsonList (raws : JsonList) : JsonList := sortKeysList (stripAPIList (decodeList raws))

/-- `normalizeRawJSONArray`: decode and strip each element, then marshal the
whole array. -/
def normalizeRawJSONArray (raws : JsonList) : String :=
  renderJson (.arr (canonJsonList raws))

-- ## Component codec: builders (internal/provider/component.go)

/-- The prefix used by auto-generated debug log actions. -/
def debugLogPrefix : String := "[DEBUG add_release_related_work] "

/-- UTF-8 bytes of one character. -/
def utf8Bytes (c : Char) : List Nat :=
  let n := c.toNat
  if n < 128 then [n]
  else if n < 2048 then [192 + n / 64, 128 + n % 64]
  else if n < 65536 then [224 + n / 4096, 128 + n / 64 % 64, 128 + n % 64]
  else [240 + n / 262144, 128 + n / 4096 % 64, 128 + n / 64 % 64, 128 + n % 64]

/-- UTF-8 bytes of a string. -/
def strBytes (s : String) : List Nat := (s.data.map utf8Bytes).flatten

/-- The standard base64 alphabet. -/
def b64Char (n : Nat) : Char :=
  "ABCDEFGHIJKLMNOPQRSTUVWXYZabcdefghijklmnopqrstuvwxyz0123456789+/".data.getD n 'A'

/-- Standard base64 with `=` padding over a byte list. -/
def base64Chunks : List Nat → List Char
  | [] => []
  | [b1] => [b64Char (b1 / 4), b64Char (b1 % 4 * 16), '=', '=']
  | [b1, b2] => [b64Char (b1 / 4), b64Char (b1 % 4 * 16 + b2 / 16), b64Char (b2 % 16 * 4), '=']
  | b1 :: b2 :: b3 :: rest =>
    [b64Char (b1 / 4), b64Char (b1 % 4 * 16 + b2 / 16), b64Char (b2 % 16 * 4 + b3 / 64),
      b64Char (b3 % 64)] ++ base64Chunks rest

/-- `base64.StdEncoding.EncodeToString` over a string's UTF-8 bytes. -/
def base64Encode (s : String) : String := ⟨base64Chunks (strBytes s)⟩

/-- `buildLog`: requires `message`; value is a plain string. -/
def buildLog (args : ArgMap) (_cloudID _webhookUser _webhookToken : String) :
    Except String Json :=
  let msg := getArg args "message"
  if msg = "" then .error "log requires a 'message' arg"
  else .ok (Json.mkObj [
    ("children", Json.mkArr []),
    ("component", .str "ACTION"),
    ("conditions", Json.mkArr []),
    ("connectionId", .null),
    ("schemaVersion", .num 1),
    ("type", .str "codebarrel.action.log"),
    ("value", .str msg)])

/-- `buildComment`: requires `message`; value is the comment body with fixed
visibility/notification defaults. -/
def buildComment (args : ArgMap) (_cloudID _webhookUser _webhookToken : String) :
    Except String Json :=
  let msg := getArg args "message"
  if msg = "" then .error "comment requires a 'message' arg"
  else .ok (Json.mkObj [
    ("children", Json.mkArr []),
    ("component", .str "ACTION"),
    ("conditions", Json.mkArr []),
    ("connectionId", .null),
    ("schemaVersion", .num 2),
    ("type", .str "jira.issue.comment"),
    ("value", Json.mkObj [
      ("comment", .str msg),
      ("publicComment", .bool false),
      ("commentVisibility", .null),
      ("sendNotifications", .bool true),
      ("addCommentOnce", .bool false)])])

/-- The webhook URL `buildAddReleaseRelatedWork` formats from the cloud ID and
the version field. -/
def relatedworkURL (cloudID versionField : String) : String :=
  "https://api.atlassian.com/ex/jira/" ++ cloudID ++
    "/rest/api/3/version/\x7b\x7bissue." ++ versionField ++
    ".format(\"###\")\x7d\x7d/relatedwork"

/-- `json.Marshal` of the `map[string]string{category, title, url}` custom
body (map keys come out sorted; the literal order already is). -/
def customBodyJSON (category title url : String) : String :=
  renderJson (Json.mkObj [("category", .str category), ("title", .str title),
    ("url", .str url)])

/-- `buildAddReleaseRelatedWork`: the outgoing-webhook action; requires
`version_field`, `category`, `title`, `url` args and webhook credentials. -/
def buildAddReleaseRelatedWork (args : ArgMap) (cloudID webhookUser webhookToken : String) :
    Except String Json :=
  let versionField := getArg args "version_field"
  let category := getArg args "category"
  let title := getArg args "title"
  let url := getArg args "url"
  if versionField = "" ∨ category = "" ∨ title = "" ∨ url = "" then
    .error "add_release_related_work requires version_field, category, title, and url args"
  else if webhookUser = "" ∨ webhookToken = "" then
    .error "add_release_related_work requires webhook_user and webhook_token in provider config (or JIRA_WEBHOOK_USER / JIRA_WEBHOOK_TOKEN env vars)"
  else
    let webhookURL := relatedworkURL cloudID versionField
    let authHeader := "Basic " ++ base64Encode (webhookUser ++ ":" ++ webhookToken)
    .ok (Json.mkObj [
      ("children", Json.mkArr []),
      ("component", .str "ACTION"),
      ("conditions", Json.mkArr []),
      ("connectionId", .null),
      ("schemaVersion", .num 1),
      ("type", .str "jira.issue.outgoing.webhook"),
      ("value", Json.mkObj [
        ("contentType", .str "custom"),
        ("continueOnErrorEnabled", .bool false),
        ("customBody", .str (customBodyJSON category title url)),
        ("headers", Json.mkArr [Json.mkObj [
          ("headerSecure", .bool true),
          ("id", .null),
          ("name", .str "Authorization"),
          ("value", .str authHeader)]]),
        ("method", .str "POST"),
        ("responseEnabled", .bool false),
        ("sendIssue", .bool false),
        ("url", .str webhookURL)])])

/-- The 4 diagnostic messages of `buildDebugLogs`, in order. -/
def debugMessages (args : ArgMap) (cloudID : String) : List String :=
  let versionField := getArg args "version_field"
  let category := getArg args "category"
  let title := getArg args "title"
  let url := getArg args "url"
  let webhookURL := relatedworkURL cloudID versionField
  [debugLogPrefix ++ "webhook_url = " ++ webhookURL,
   debugLogPrefix ++ "request_body = " ++ customBodyJSON category title url,
   debugLogPrefix ++ "version_field_value = \x7b\x7bissue." ++ versionField ++ "\x7d\x7d",
   debugLogPrefix ++ "version_id = \x7b\x7bissue." ++ versionField ++ ".format(\"###\")\x7d\x7d"]

/-- `buildDebugLogs`: 4 log actions dumping the computed webhook URL, body,
raw field value and formatted field value. -/
def buildDebugLogs (args : ArgMap) (cloudID : String) : Except String (List Json) :=
  go (debugMessages args cloudID)
where
  go : List String → Except String (List Json)
  | [] => .ok []
  | msg :: rest => do
    let raw ← buildLog [("message", msg)] "" "" ""
    let logs ← go rest
    .ok (raw :: logs)

/-- Registry dispatch of `componentRegistry` builders. -/
def registryBuild (actionType : String) (args : ArgMap)
    (cloudID webhookUser webhookToken : String) : Except String Json :=
  if actionType = "log" then buildLog args cloudID webhookUser webhookToken
  else if actionType = "comment" then buildComment args cloudID webhookUser webhookToken
  else if actionType = "add_release_related_work" then
    buildAddReleaseRelatedWork args cloudID webhookUser webhookToken
  else .error ("unknown action type " ++ actionType)

/-- `buildActionWithDebug`: one or more actions for the given type; for
`add_release_related_work` with `debug="true"` the 4 debug logs are built
from the debug-stripped args and prepended to the real webhook action. -/
def buildActionWithDebug (actionType : String) (args : ArgMap)
    (cloudID webhookUser webhookToken : String) : Except String (List Json) :=
  if actionType = "add_release_related_work" ∧ getArg args "debug" = "true" then do
    let buildArgs := args.filter (fun kv => kv.1 ≠ "debug")
    let debugLogs ← buildDebugLogs buildArgs cloudID
    let webhookRaw ← buildAddReleaseRelatedWork buildArgs cloudID webhookUser webhookToken
    .ok (debugLogs ++ [webhookRaw])
  else do
    let raw ← registryBuild actionType args cloudID webhookUser webhookToken
    .ok [raw]

/-- `BuildConditionJSON`: the 3-layer condition container. The Go code takes
the then/else actions as raw bytes and re-decodes them for nesting; the model
receives the already-decoded values (decoding marshalled output always
succeeds), so only the `first`/`operator` check can fail. -/
def BuildConditionJSON (condArgs : ArgMap) (thenActions elseActions : List Json) :
    Except String Json :=
  let first := getArg condArgs "first"
  let operator := getArg condArgs "operator"
  let second := getArg condArgs "second"
  if first = "" ∨ operator = "" then
    .error "condition requires 'first' and 'operator' args"
  else
    let comparator := Json.mkObj [
      ("children", Json.mkArr []),
      ("component", .str "CONDITION"),
      ("conditions", Json.mkArr []),
      ("connectionId", .null),
      ("schemaVersion", .num 1),
      ("type", .str "jira.comparator.condition"),
      ("value", Json.mkObj [
        ("first", .str first),
        ("operator", .str operator),
        ("second", .str second)])]
    let ifBlock := Json.mkObj [
      ("children", Json.mkArr thenActions),
      ("component", .str "CONDITION_BLOCK"),
      ("conditions", Json.mkArr [comparator]),
      ("connectionId", .null),
      ("schemaVersion", .num 1),
      ("type", .str "jira.condition.if.block"),
      ("value", Json.mkObj [("conditionMatchType", .str "ALL")])]
    let elseBlock := Json.mkObj [
      ("children", Json.mkArr elseActions),
      ("component", .str "CONDITION_BLOCK"),
      ("conditions", Json.mkArr []),
      ("connectionId", .null),
      ("schemaVersion", .num 1),
      ("type", .str "jira.condition.if.block"),
      ("value", Json.mkObj [("conditionMatchType", .str "ALL")])]
    .ok (Json.mkObj [
      ("children", Json.mkArr [ifBlock, elseBlock]),
      ("component", .str "CONDITION"),
      ("conditions", Json.mkArr []),
      ("connectionId", .null),
      ("schemaVersion", .num 1),
      ("type", .str "jira.condition.container.block"),
      ("value", Json.mkObj [])])

-- ## Component codec: parsers (internal/provider/component.go)

/-- Go map assignment on a string map (`m[key] = v`, last write wins). -/
def setArgKey (m : ArgMap) (key v : String) : ArgMap :=
  (m.filter (fun kv => kv.1 ≠ key)) ++ [(key, v)]

/-- JSON whitespace. -/
def isJSONWs (c : Char) : Bool := c = ' ' ∨ c = '\t' ∨ c = '\n' ∨ c = '\r'

/-- Skip JSON whitespace. -/
def skipWS (cs : List Char) : List Char := cs.dropWhile isJSONWs

/-- Hex digit value. -/
def hexVal (c : Char) : Option Nat :=
  if '0' ≤ c ∧ c ≤ '9' then some (c.toNat - 48)
  else if 'a' ≤ c ∧ c ≤ 'f' then some (c.toNat - 87)
  else if 'A' ≤ c ∧ c ≤ 'F' then some (c.toNat - 55)
  else none

/-- Decode a JSON string body after its opening quote: the decoded content
and the input past the closing quote. (Escapes are decoded as in
`encoding/json`; lone surrogate halves, which Go folds to U+FFFD, do not
arise in any value this program produces.) -/
def parseJStrAux : Nat → List Char → Option (List Char × List Char)
  | 0, _ => none
  | fuel + 1, cs =>
    match cs with
    | [] => none
    | c :: rest =>
      if c = '"' then some ([], rest)
      else if c = '\\' then
        match rest with
        | [] => none
        | e :: rest2 =>
          if e = 'u' then
            match rest2 with
            | a :: b :: c2 :: d :: rest3 => do
              let ha ← hexVal a
              let hb ← hexVal b
              let hc ← hexVal c2
              let hd ← hexVal d
              let (s, r) ← parseJStrAux fuel rest3
              some (Char.ofNat (ha * 4096 + hb * 256 + hc * 16 + hd) :: s, r)
            | _ => none
          else do
            let dec ← if e = '"' then some '"' else if e = '\\' then some '\\'
              else if e = '/' then some '/' else if e = 'b' then some (Char.ofNat 8)
              else if e = 'f' then some (Char.ofNat 12) else if e = 'n' then some '\n'
              else if e = 'r' then some '\r' else if e = 't' then some '\t' else none
            let (s, r) ← parseJStrAux fuel rest2
            some (dec :: s, r)
      else do
        let (s, r) ← parseJStrAux fuel rest
        some (c :: s, r)

/-- Fields of a `map[string]string` JSON object, starting at a field (or the
closing brace); duplicate keys overwrite as Go map assignment does. -/
def parseStrMapFields : Nat → ArgMap → List Char → Option ArgMap
  | 0, _, _ => none
  | fuel + 1, acc, cs =>
    match skipWS cs with
    | '}' :: r => if skipWS r = [] then some acc else none
    | '"' :: rest => do
      let (key, r1) ← parseJStrAux (rest.length + 1) rest
      match skipWS r1 with
      | ':' :: r3 =>
        match skipWS r3 with
        | '"' :: r5 => do
          let (val, r6) ← parseJStrAux (r5.length + 1) r5
          let acc' := setArgKey acc ⟨key⟩ ⟨val⟩
          match skipWS r6 with
          | ',' :: r8 => parseStrMapFields fuel acc' r8
          | '}' :: r8 => if skipWS r8 = [] then some acc' else none
          | _ => none
        | _ => none
      | _ => none
    | _ => none

/-- `json.Unmarshal` of a byte string into `map[string]string`. -/
def parseStringMap (s : String) : Option ArgMap :=
  match skipWS s.data with
  | '{' :: rest => parseStrMapFields (s.data.length + 1) [] rest
  | _ => none

/-- If `pfx` is a prefix of `cs`, the remainder. -/
def stripPrefixChars (pfx : List Char) (cs : List Char) : Option (List Char) :=
  match pfx, cs with
  | [], cs => some cs
  | _ :: _, [] => none
  | p :: ps, c :: rest => if p = c then stripPrefixChars ps rest else none

/-- The `relatedworkURLPattern` regexp as a deterministic matcher: the cloud
ID is everything up to the first `/` (the regex's `[^/]+` must stop at the
literal `/` that follows), the version field everything up to the first `.`;
returns the captured version field. -/
def matchRelatedworkURL (url : String) : Option String := do
  let r1 ← stripPrefixChars "https://api.atlassian.com/ex/jira/".data url.data
  let (cid, r2) := r1.span (fun c => c ≠ '/')
  if cid = [] then none
  else do
    let r3 ← stripPrefixChars "/rest/api/3/version/\x7b\x7bissue.".data r2
    let (vf, r4) := r3.span (fun c => c ≠ '.')
    if vf = [] then none
    else do
      let r5 ← stripPrefixChars ".format(\"###\")\x7d\x7d/relatedwork".data r4
      if r5 = [] then some ⟨vf⟩ else none

/-- `json.Unmarshal` of an action into `struct{Value string}` (the log
parser's shape). -/
def parseLogValue (raw : Json) : Except String String :=
  match raw with
  | .null => .ok ""
  | .obj kvs =>
    match kvs.lookup "value" with
    | none => .ok ""
    | some .null => .ok ""
    | some (.str s) => .ok s
    | some _ => .error "parsing log action: cannot unmarshal value"
  | _ => .error "parsing log action: cannot unmarshal action"

/-- `parseLog`: the message is the action's string value. -/
def parseLog (raw : Json) : Except String ArgMap := do
  let v ← parseLogValue raw
  .ok [("message", v)]

/-- Read an optional string field of an unmarshalled struct (absent and null
give the zero value `""`). -/
def structStrField (kvs : JsonFields) (key : String) : Except String String :=
  match kvs.lookup key with
  | none => .ok ""
  | some .null => .ok ""
  | some (.str s) => .ok s
  | some _ => .error ("cannot unmarshal field " ++ key)

/-- An optional object-valued field (absent and null give the zero struct). -/
def structObjField (kvs : JsonFields) (key : String) : Except String JsonFields :=
  match kvs.lookup key with
  | none => .ok .nil
  | some .null => .ok .nil
  | some (.obj inner) => .ok inner
  | some _ => .error ("cannot unmarshal field " ++ key)

/-- `parseComment`: the message is `value.comment`. -/
def parseComment (raw : Json) : Except String ArgMap :=
  match raw with
  | .null => .ok [("message", "")]
  | .obj kvs => do
    let v ← structObjField kvs "value"
    let msg ← structStrField v "comment"
    .ok [("message", msg)]
  | _ => .error "parsing comment action: cannot unmarshal action"

/-- `parseAddReleaseRelatedWork`: reads `value.url` and `value.customBody`,
matches the URL against the relatedwork pattern and decodes the custom body
as a string map. -/
def parseAddReleaseRelatedWork (raw : Json) : Except String ArgMap := do
  let kvs ← match raw with
    | .null => pure JsonFields.nil
    | .obj kvs => pure kvs
    | _ => .error "parsing webhook action: cannot unmarshal action"
  let v ← structObjField kvs "value"
  let url ← structStrField v "url"
  let customBody ← structStrField v "customBody"
  match matchRelatedworkURL url with
  | none => .error ("webhook URL " ++ url ++ " does not match relatedwork pattern")
  | some versionField =>
    match parseStringMap customBody with
    | none => .error "parsing webhook custom body"
    | some body =>
      .ok [("version_field", versionField), ("category", getArg body "category"),
           ("title", getArg body "title"), ("url", getArg body "url")]

/-- Registry dispatch of `componentRegistry` parsers (keyed by the user-facing
type that `apiTypeToComponentUserType` recovered). -/
def registryParse (userType : String) (raw : Json) : Except String ArgMap :=
  if userType = "log" then parseLog raw
  else if userType = "comment" then parseComment raw
  else parseAddReleaseRelatedWork raw

/-- `apiTypeToComponentUserType`: API type tags back to user-facing names. -/
def apiTypeToComponentUserType (apiType : String) : Option String :=
  if apiType = "codebarrel.action.log" then some "log"
  else if apiType = "jira.issue.comment" then some "comment"
  else if apiType = "jira.issue.outgoing.webhook" then some "add_release_related_work"
  else none

/-- The Terraform model of one action inside a then/else block
(`innerActionModel`). -/
structure InnerAction where
  type : String
  args : ArgMap
deriving DecidableEq, Repr

/-- The Terraform model of one component (`componentModel`); an empty
`elseActs` models the absent `Else` field. -/
structure Component where
  type : String
  args : ArgMap
  thenActs : List InnerAction
  elseActs : List InnerAction
deriving DecidableEq, Repr

/-- An optional `[]json.RawMessage` field (absent and null give nil). -/
def structRawListField (kvs : JsonFields) (key : String) : Except String (List Json) :=
  match kvs.lookup key with
  | none => .ok []
  | some .null => .ok []
  | some (.arr xs) => .ok xs.toList
  | some _ => .error ("cannot unmarshal field " ++ key)

/-- The non-skip tail of one `parseInnerActions` iteration: recover the user
type, disambiguate outgoing webhooks by their URL suffix, parse the args, and
mark `debug="true"` when a debug-log run immediately preceded a matching
webhook. -/
def parseInnerOne (reverse : ArgMap) (saw : Bool) (t : String) (raw : Json) :
    Except String InnerAction := do
  let userType ← match apiTypeToComponentUserType t with
    | some u => pure u
    | none => Except.error ("unrecognized component API type: " ++ t)
  if t = "jira.issue.outgoing.webhook" then do
    let kvs ← match raw with
      | .null => pure JsonFields.nil
      | .obj kvs => pure kvs
      | _ => Except.error "parsing webhook URL"
    let v ← structObjField kvs "value"
    let url ← structStrField v "url"
    if ¬ "/relatedwork".data.isSuffixOf url.data then
      Except.error ("outgoing webhook URL " ++ url ++
        " does not match any known component type; use components_json escape hatch")
    else do
      let args ← (registryParse userType raw).mapError
        (fun e => "parsing " ++ userType ++ " action: " ++ e)
      let args := if saw ∧ userType = "add_release_related_work" then
        setArgKey args "debug" "true" else args
      .ok ⟨userType, unresolveAliases args reverse⟩
  else do
    let args ← (registryParse userType raw).mapError
      (fun e => "parsing " ++ userType ++ " action: " ++ e)
    let args := if saw ∧ userType = "add_release_related_work" then
      setArgKey args "debug" "true" else args
    .ok ⟨userType, unresolveAliases args reverse⟩

/-- `parseInnerActions`, with the "did we just see a debug-marker log" flag
made an explicit parameter: debug-marker logs are skipped and set the flag,
every other entry resets it. -/
def parseInnerActionsAux (reverse : ArgMap) : Bool → List Json → Except String (List InnerAction)
  | _, [] => .ok []
  | saw, raw :: rest => do
    let t ← (parseTypeTag raw).mapError (fun e => "parsing action type: " ++ e)
    if t = "codebarrel.action.log" then do
      let v ← (parseLogValue raw).mapError (fun e => "parsing log value: " ++ e)
      if debugLogPrefix.data.isPrefixOf v.data then
        parseInnerActionsAux reverse true rest
      else do
        let a ← parseInnerOne reverse saw t raw
        let rest' ← parseInnerActionsAux reverse false rest
        .ok (a :: rest')
    else do
      let a ← parseInnerOne reverse saw t raw
      let rest' ← parseInnerActionsAux reverse false rest
      .ok (a :: rest')

/-- `parseInnerActions` as called by the condition parser (flag starts
clear). -/
def parseInnerActions (raws : List Json) (reverse : ArgMap) :
    Except String (List InnerAction) :=
  parseInnerActionsAux reverse false raws

/-- `parseConditionContainer`: reads the comparator out of the IF block's
singleton condition list, THEN actions from its children and ELSE actions
from the second child when present; the else list stays empty unless at
least one else action exists. -/
def parseConditionContainer (raw : Json) (reverse : ArgMap) : Except String Component := do
  let kvs ← match raw with
    | .null => pure JsonFields.nil
    | .obj kvs => pure kvs
    | _ => Except.error "parsing condition container"
  let children ← (structRawListField kvs "children").mapError
    (fun e => "parsing condition container: " ++ e)
  match children with
  | [] => Except.error "condition container has no children"
  | ifRaw :: restChildren => do
    let ifKvs ← match ifRaw with
      | .null => pure JsonFields.nil
      | .obj m => pure m
      | _ => Except.error "parsing IF block"
    let conds ← (structRawListField ifKvs "conditions").mapError
      (fun e => "parsing IF block: " ++ e)
    let ifChildren ← (structRawListField ifKvs "children").mapError
      (fun e => "parsing IF block: " ++ e)
    match conds with
    | [] => Except.error "IF block has no conditions"
    | compRaw :: _ => do
      let compKvs ← match compRaw with
        | .null => pure JsonFields.nil
        | .obj m => pure m
        | _ => Except.error "parsing comparator condition"
      let v ← (structObjField compKvs "value").mapError
        (fun e => "parsing comparator condition: " ++ e)
      let first ← structStrField v "first"
      let operator ← structStrField v "operator"
      let second ← structStrField v "second"
      let condArgs := unresolveAliases
        [("first", first), ("operator", operator), ("second", second)] reverse
      let thenActs ← (parseInnerActions ifChildren reverse).mapError
        (fun e => "parsing then actions: " ++ e)
      let elseActs ← match restChildren with
        | [] => pure ([] : List InnerAction)
        | elseRaw :: _ => do
          let elseKvs ← match elseRaw with
            | .null => pure JsonFields.nil
            | .obj m => pure m
            | _ => Except.error "parsing ELSE block"
          let elseChildren ← (structRawListField elseKvs "children").mapError
            (fun e => "parsing ELSE block: " ++ e)
          match elseChildren with
          | [] => pure ([] : List InnerAction)
          | _ =>
            (parseInnerActions elseChildren reverse).mapError
              (fun e => "parsing else actions: " ++ e)
      .ok ⟨"condition", condArgs, thenActs, elseActs⟩

/-- The non-skip tail of one `ParseComponents` iteration: condition containers
go through `parseConditionContainer`, everything else through the registry
parser (no webhook-URL disambiguation at top level). -/
def parseTopOne (reverse : ArgMap) (saw : Bool) (t : String) (raw : Json) (i : Nat) :
    Except String Component := do
  if t = "jira.condition.container.block" then
    (parseConditionContainer raw reverse).mapError
      (fun e => "component " ++ natDec i ++ ": " ++ e)
  else do
    let userType ← match apiTypeToComponentUserType t with
      | some u => pure u
      | none => Except.error ("component " ++ natDec i ++ ": unrecognized API type " ++ t)
    let args ← (registryParse userType raw).mapError
      (fun e => "component " ++ natDec i ++ ": " ++ e)
    let args := if saw ∧ userType = "add_release_related_work" then
      setArgKey args "debug" "true" else args
    .ok ⟨userType, unresolveAliases args reverse, [], []⟩

/-- `ParseComponents`, with the debug flag and the component index explicit:
debug-marker logs are skipped (setting the flag), every parsed component
resets it. -/
def ParseComponentsAux (reverse : ArgMap) : Bool → Nat → List Json →
    Except String (List Component)
  | _, _, [] => .ok []
  | saw, i, raw :: rest => do
    let t ← (parseTypeTag raw).mapError
      (fun e => "component " ++ natDec i ++ ": parsing type: " ++ e)
    if t = "codebarrel.action.log" then do
      let v ← (parseLogValue raw).mapError
        (fun e => "component " ++ natDec i ++ ": parsing log value: " ++ e)
      if debugLogPrefix.data.isPrefixOf v.data then
        ParseComponentsAux reverse true (i + 1) rest
      else do
        let c ← parseTopOne reverse saw t raw i
        let rest' ← ParseComponentsAux reverse false (i + 1) rest
        .ok (c :: rest')
    else do
      let c ← parseTopOne reverse saw t raw i
      let rest' ← ParseComponentsAux reverse false (i + 1) rest
      .ok (c :: rest')

/-- `ParseComponents`: the full parse of the API components list back into
structured component models. -/
def ParseComponents (raws : List Json) (reverse : ArgMap) :
    Except String (List Component) :=
  ParseComponentsAux reverse false 0 raws

-- ## Rule state / destroy protocol (client.SetRuleState, ruleResource.Delete)

/-- An HTTP request the client issues. -/
structure Request where
  method : String
  path : String
  body : Json
deriving DecidableEq, Repr

/-- The single request `SetRuleState` issues: a PUT of `{"value":
"ENABLED"|"DISABLED"}` to the rule's dedicated `/state` sub-path. -/
def setRuleStateRequest (baseURL uuid : String) (enabled : Bool) : Request :=
  { method := "PUT"
    path := baseURL ++ "/rule/" ++ uuid ++ "/state"
    body := Json.mkObj [("value", .str (if enabled then "ENABLED" else "DISABLED"))] }

/-- A Terraform diagnostic: fatal error (AddError) or non-fatal warning
(AddWarning). -/
inductive Diag where
  | fatal (summary detail : String)
  | warning (summary detail : String)
deriving DecidableEq, Repr

/-- Modelled from the spec: the remote rule store, identifier → rule object.
The remote system's code is not part of this repository; spec §6 fixes the
state endpoint's path and `{"value": ...}` payload and §4.4/§8 its effect. -/
abbrev RemoteRules := List (String × JsonFields)

/-- Modelled from the spec: a GET by identifier resolves iff the store holds
the rule. -/
def remoteGetRule : RemoteRules → String → Option JsonFields
  | [], _ => none
  | (u, r) :: rest, uuid => if u = uuid then some r else remoteGetRule rest uuid

/-- Modelled from the spec: the state endpoint overwrites only the addressed
rule's `state` attribute. -/
def remoteApplySetState : RemoteRules → String → String → RemoteRules
  | [], _, _ => []
  | (u, r) :: rest, uuid, v =>
    if u = uuid then
      (u, JsonFields.setKey "state" (Json.str v) r) :: remoteApplySetState rest uuid v
    else
      (u, r) :: remoteApplySetState rest uuid v

/-- The `Delete` handler run against the modelled remote store: it issues only
the one disable call (`SetRuleState(uuid, false)`); if the remote call fails
the handler adds a fatal error, on success a non-fatal warning that the rule
was disabled, not deleted. Returns the requests issued, the resulting store
and the diagnostic. -/
def destroyRule (baseURL uuid : String) (rules : RemoteRules) :
    List Request × RemoteRules × Diag :=
  let req := setRuleStateRequest baseURL uuid false
  match remoteGetRule rules uuid with
  | none =>
    ([req], rules, .fatal "Error disabling rule on destroy"
      ("The Jira Automation API has no DELETE endpoint. Attempted to disable rule " ++
        uuid ++ " instead, but got an error"))
  | some _ =>
    ([req], remoteApplySetState rules uuid "DISABLED",
      .warning "Rule disabled, not deleted"
        ("Rule " ++ uuid ++ " was disabled because the Jira Automation API does not " ++
          "support deletion. You may want to manually remove it from the Jira UI."))

-- ## Go map reference semantics for the alias resolver

/-- A heap of Go string maps. Go maps are references: this store makes the
aliasing behaviour of `resolveAliases`/`unresolveAliases` (which return the
input map itself for an empty table) observable. -/
structure MapHeap where
  maps : List ArgMap
deriving DecidableEq, Repr

/-- Dereference. -/
def MapHeap.read (h : MapHeap) (r : Nat) : ArgMap := h.maps.getD r []

/-- Overwrite the map behind a reference. -/
def MapHeap.write (h : MapHeap) (r : Nat) (m : ArgMap) : MapHeap := ⟨h.maps.set r m⟩

/-- `m[k] = v` performed through a map reference. -/
def MapHeap.setEntry (h : MapHeap) (r : Nat) (k v : String) : MapHeap :=
  h.write r (setArgKey (h.read r) k v)

/-- `resolveAliases` with Go's reference semantics: the empty-table early
return hands back the caller's reference; otherwise a fresh map is allocated
and filled from the input's content. -/
def resolveAliasesRef (h : MapHeap) (r : Nat) (aliases : ArgMap) : MapHeap × Nat :=
  if aliases = [] then (h, r)
  else (⟨h.maps ++ [resolveAliases (h.read r) aliases]⟩, h.maps.length)

/-- `unresolveAliases` with Go's reference semantics. -/
def unresolveAliasesRef (h : MapHeap) (r : Nat) (reverse : ArgMap) : MapHeap × Nat :=
  if reverse = [] then (h, r)
  else (⟨h.maps ++ [unresolveAliases (h.read r) reverse]⟩, h.maps.length)

-- ## Predicates used by the claims

-- Every number of the tree has magnitude at most 2^53 (exactly the integers
-- a float64 round-trips unchanged).
mutual
def smallNums : Json → Bool
  | .num n => n.natAbs ≤ 2 ^ 53
  | .arr xs => smallNumsList xs
  | .obj kvs => smallNumsFields kvs
  | _ => true

def smallNumsList : JsonList → Bool
  | .nil => true
  | .cons x xs => smallNums x && smallNumsList xs

def smallNumsFields : JsonFields → Bool
  | .nil => true
  | .cons _ v rest => smallNums v && smallNumsFields rest
end

-- A component/trigger tree in write shape: at every component node (the
-- objects reached through the `children`/`conditions` arrays, starting at the
-- root) the `id` key is absent and the parent-link keys are bound to null.
mutual
def StrippedSpine : Json → Prop
  | .obj kvs =>
    kvs.lookup "id" = none ∧ kvs.lookup "parentId" = some Json.null ∧
      kvs.lookup "conditionParentId" = some Json.null ∧ SpineFields kvs
  | _ => True

def SpineFields : JsonFields → Prop
  | .nil => True
  | .cons k v rest =>
    (if k = "children" ∨ k = "conditions" then SpineChild v else True) ∧ SpineFields rest

def SpineChild : Json → Prop
  | .arr xs => SpineList xs
  | _ => True

def SpineList : JsonList → Prop
  | .nil => True
  | .cons x xs => StrippedSpine x ∧ SpineList xs
end

-- ## Observation helpers for the claims

/-- A field of a JSON object (`none` on non-objects). -/
def jsonField (j : Json) (key : String) : Option Json :=
  match j with
  | .obj kvs => kvs.lookup key
  | _ => none

/-- The `children` array of a component node. -/
def jsonChildren (j : Json) : List Json :=
  match jsonField j "children" with
  | some (.arr xs) => xs.toList
  | _ => []

/-- The `conditions` array of a component node. -/
def jsonConditions (j : Json) : List Json :=
  match jsonField j "conditions" with
  | some (.arr xs) => xs.toList
  | _ => []

/-- Insertion step for sorting plain string lists by byte order. -/
def insertStr (x : String) : List String → List String
  | [] => [x]
  | y :: ys => if strLe x y then x :: y :: ys else y :: insertStr x ys

/-- Insertion sort of a string list by byte order. -/
def sortStrings : List String → List String
  | [] => []
  | x :: xs => insertStr x (sortStrings xs)

/-- Canonical form of a Go string map: distinct keys in sorted order, each
with its looked-up value. Two `ArgMap`s are equal as Go maps exactly when
their canonical forms are equal. -/
def canonArgs (a : ArgMap) : ArgMap :=
  (sortStrings ((a.map Prod.fst).dedup)).map (fun k => (k, getArg a k))

/-- An API entry that is a debug-marker log action: type
`codebarrel.action.log` with a string value starting with `debugLogPrefix`. -/
def isDebugLogEntry (j : Json) : Bool :=
  match j with
  | .obj kvs =>
    (match kvs.lookup "type" with
     | some (.str t) => t = "codebarrel.action.log"
     | _ => false) &&
    (match kvs.lookup "value" with
     | some (.str v) => debugLogPrefix.data.isPrefixOf v.data
     | _ => false)
  | _ => false

/-- A field of a node's `value` object. -/
def jsonValueField (j : Json) (key : String) : Option Json :=
  match jsonField j "value" with
  | some v => jsonField v key
  | none => none

-- Sortedness of an object's fields by byte order of keys.
def FieldsSorted : JsonFields → Prop
  | .nil => True
  | .cons _ _ .nil => True
  | .cons k _ (.cons k' v' rest) => strLe k k' = true ∧ FieldsSorted (.cons k' v' rest)

-- `k` is `<=` every key of the field list (all byte-order comparisons).
def keyLeAll (k : String) : JsonFields → Prop
  | .nil => True
  | .cons k' _ rest => strLe k k' = true ∧ keyLeAll k rest

-- Key-preserving value map over a field list; `stripAPIEntries`,
-- `sortKeysFields` and `decodeFields` are all instances, which makes their
-- commutations with `eraseKey`/`sortFields` uniform.
def mapValues (g : String → Json → Json) : JsonFields → JsonFields
  | .nil => .nil
  | .cons k v rest => .cons k (g k v) (mapValues g rest)

/-- The left-brace character (by code point). -/
def lbrace : Char := Char.ofNat 123

/-- No left brace anywhere in the string: such a value can never host a
smart-value pattern (every pattern the resolver replaces starts with two
braces). -/
abbrev braceFree (s : String) : Prop := lbrace ∉ s.data

/-- A non-conflicting alias table: nonempty, with pairwise distinct alias
names and pairwise distinct field IDs, all nonempty and brace-free. -/
abbrev TableOK (t : ArgMap) : Prop :=
  t ≠ [] ∧ (t.map Prod.fst).Nodup ∧ (t.map Prod.snd).Nodup ∧
    ∀ p ∈ t, p.1 ≠ "" ∧ p.2 ≠ "" ∧ braceFree p.1 ∧ braceFree p.2

/-- Argument values for which the resolve/unresolve round trip is exact:
either a brace-free value that is not (an accidental copy of) a field ID
unless it is an alias name, or a single smart value `\x7b\x7bLEAD.NAME...`
whose alias name/field ID is not a prefix-collision with any other table
entry. -/
def ValueOK (t : ArgMap) (v : String) : Prop :=
  (braceFree v ∧ (lookupArg t v = none → ∀ p ∈ t, v ≠ p.2))
  ∨ ∃ lead nm f r,
      (lead = "issue." ∨ lead = "triggerIssue.") ∧
      (nm, f) ∈ t ∧ braceFree r ∧
      v = "\x7b\x7b" ++ lead ++ nm ++ r ∧
      (∀ p ∈ t, p.1 ≠ nm →
        p.1.data.isPrefixOf (nm ++ r).data = false ∧
        p.1.data.isPrefixOf (f ++ r).data = false) ∧
      (∀ p ∈ t, p.2 ≠ f →
        p.2.data.isPrefixOf (nm ++ r).data = false ∧
        p.2.data.isPrefixOf (f ++ r).data = false)

-- # Theorems

theorem JsonFields.lookup_eraseKey_self (key : String) :
    ∀ m : JsonFields, (m.eraseKey key).lookup key = none
  | .nil => rfl
  | .cons k v rest => by
    by_cases h : k = key <;>
      simp [JsonFields.eraseKey, JsonFields.lookup, h,
        JsonFields.lookup_eraseKey_self key rest]

theorem JsonFields.lookup_eraseKey_ne (key k' : String) (h : k' ≠ key) :
    ∀ m : JsonFields, (m.eraseKey key).lookup k' = m.lookup k'
  | .nil => rfl
  | .cons k v rest => by
    have hkeyk' : ¬ key = k' := fun hh => h hh.symm
    by_cases hk : k = key
    · simp [JsonFields.eraseKey, JsonFields.lookup, hk, hkeyk',
        JsonFields.lookup_eraseKey_ne key k' h rest]
    · by_cases hk' : k = k' <;>
        simp [JsonFields.eraseKey, JsonFields.lookup, hk, hk', h, hkeyk',
          JsonFields.lookup_eraseKey_ne key k' h rest]

theorem JsonFields.lookup_append (m₂ : JsonFields) (k : String) :
    ∀ m₁ : JsonFields, (m₁.append m₂).lookup k =
      ((m₁.lookup k).rec (m₂.lookup k) fun v => some v)
  | .nil => rfl
  | .cons k' v rest => by
    by_cases h : k' = k <;>
      simp [JsonFields.append, JsonFields.lookup, h, JsonFields.lookup_append m₂ k rest]

theorem JsonFields.lookup_setKey_self (key : String) (v : Json) (m : JsonFields) :
    (m.setKey key v).lookup key = some v := by
  simp [JsonFields.setKey, JsonFields.lookup_append, JsonFields.lookup_eraseKey_self,
    JsonFields.lookup]

theorem JsonFields.lookup_setKey_ne (key k' : String) (v : Json) (m : JsonFields)
    (h : k' ≠ key) : (m.setKey key v).lookup k' = m.lookup k' := by
  rw [JsonFields.setKey, JsonFields.lookup_append, JsonFields.lookup_eraseKey_ne key k' h m]
  cases m.lookup k' with
  | none =>
    have hkk' : ¬ key = k' := fun hh => h hh.symm
    simp [JsonFields.lookup, hkk']
  | some w => rfl

-- ## Argument maps (Go `map[string]string`)

/-- Round-tripping a list through `JsonList` is the identity. -/
theorem JsonList.toList_ofList : ∀ l : List Json, (JsonList.ofList l).toList = l
  | [] => rfl
  | x :: xs => by simp [JsonList.ofList, JsonList.toList, JsonList.toList_ofList xs]

/-- A string with a non-empty left part is non-empty. -/
theorem String.append_left_ne_empty (a b : String) (h : a ≠ "") : a ++ b ≠ "" := by
  intro hab
  apply h
  have hd := congrArg String.data hab
  rw [String.data_append] at hd
  rcases List.append_eq_nil.mp hd with ⟨ha, _⟩
  cases a
  simp_all

/-- C2: for every condition argument map with non-empty `first` and
`operator` (`second` may be empty) and any then/else action lists,
`BuildConditionJSON` succeeds and returns an outer container with exactly 2
children: an IF block whose `conditions` hold exactly the one comparator
carrying first/operator/second and whose `children` are exactly the then
actions in order, and an ELSE block with no conditions whose `children` are
exactly the else actions in order; with `first` or `operator` empty it fails
with the missing-argument error instead. -/
theorem buildConditionJSON_spec (condArgs : ArgMap) (thenActions elseActions : List Json) :
    (getArg condArgs "first" = "" ∨ getArg condArgs "operator" = "" →
      BuildConditionJSON condArgs thenActions elseActions =
        .error "condition requires 'first' and 'operator' args") ∧
    (getArg condArgs "first" ≠ "" → getArg condArgs "operator" ≠ "" →
      ∃ container,
        BuildConditionJSON condArgs thenActions elseActions = .ok container ∧
        jsonField container "type" = some (.str "jira.condition.container.block") ∧
        (jsonChildren container).length = 2 ∧
        jsonField ((jsonChildren container).getD 0 .null) "component" =
          some (.str "CONDITION_BLOCK") ∧
        jsonField ((jsonChildren container).getD 0 .null) "type" =
          some (.str "jira.condition.if.block") ∧
        (jsonConditions ((jsonChildren container).getD 0 .null)).length = 1 ∧
        jsonField ((jsonConditions ((jsonChildren container).getD 0 .null)).getD 0 .null)
          "type" = some (.str "jira.comparator.condition") ∧
        jsonField ((jsonConditions ((jsonChildren container).getD 0 .null)).getD 0 .null)
          "value" = some (Json.mkObj
            [("first", .str (getArg condArgs "first")),
             ("operator", .str (getArg condArgs "operator")),
             ("second", .str (getArg condArgs "second"))]) ∧
        jsonChildren ((jsonChildren container).getD 0 .null) = thenActions ∧
        jsonField ((jsonChildren container).getD 1 .null) "component" =
          some (.str "CONDITION_BLOCK") ∧
        jsonConditions ((jsonChildren container).getD 1 .null) = [] ∧
        jsonChildren ((jsonChildren container).getD 1 .null) = elseActions) := by
  constructor
  · intro h
    simp only [BuildConditionJSON]
    rw [if_pos h]
  · intro h1 h2
    have hneg : ¬ (getArg condArgs "first" = "" ∨ getArg condArgs "operator" = "") := by
      tauto
    simp only [BuildConditionJSON]
    rw [if_neg hneg]
    refine ⟨_, rfl, ?_, ?_, ?_, ?_, ?_, ?_, ?_, ?_, ?_, ?_, ?_⟩ <;>
      simp [jsonField, jsonChildren, jsonConditions,
        Json.mkObj, Json.mkArr, JsonFields.ofList, JsonFields.lookup, JsonList.ofList,
        JsonList.toList, JsonList.toList_ofList]

/-- Filtering out one key leaves every other key's first match unchanged. -/
theorem lookupArg_filter_ne (d k : String) (h : k ≠ d) :
    ∀ l : ArgMap, lookupArg (l.filter (fun kv => kv.1 ≠ d)) k = lookupArg l k
  | [] => rfl
  | (k', v) :: rest => by
    have hdk : ¬ d = k := fun hh => h hh.symm
    have ih := lookupArg_filter_ne d k h rest
    simp only [List.filter] at ih ⊢
    by_cases hk : k' = d
    · have hkk : ¬ k' = k := by rw [hk]; exact hdk
      simp only [hk, decide_True, Bool.not_true, lookupArg, hdk, if_false]
      simpa [hk] using ih
    · by_cases hk' : k' = k <;>
        simp_all [lookupArg]

/-- `getArg` version of `lookupArg_filter_ne`. -/
theorem getArg_filter_ne (l : ArgMap) (d k : String) (h : k ≠ d) :
    getArg (l.filter (fun kv => kv.1 ≠ d)) k = getArg l k := by
  unfold getArg
  rw [lookupArg_filter_ne d k h l]

/-- `buildLog` on a non-empty message succeeds with the fixed log action. -/
theorem buildLog_ok (msg a b c : String) (h : msg ≠ "") :
    buildLog [("message", msg)] a b c = .ok (Json.mkObj [
      ("children", Json.mkArr []),
      ("component", .str "ACTION"),
      ("conditions", Json.mkArr []),
      ("connectionId", .null),
      ("schemaVersion", .num 1),
      ("type", .str "codebarrel.action.log"),
      ("value", .str msg)]) := by
  simp [buildLog, getArg, lookupArg, h]

/-- C3: building an `add_release_related_work` action whose argument map
carries `debug="true"` together with non-empty `version_field`, `category`,
`title` and `url`, with webhook credentials present, yields exactly 5 JSON
entries: the first 4 are log actions whose string values start with the
debug-marker prefix, and the 5th is the outgoing-webhook action whose URL
contains the cloud identifier and the version field name and whose
Authorization header value starts with `"Basic "`. -/
theorem buildActionWithDebug_debug_spec (args : ArgMap)
    (cloudID webhookUser webhookToken : String)
    (hdebug : getArg args "debug" = "true")
    (hvf : getArg args "version_field" ≠ "")
    (hcat : getArg args "category" ≠ "")
    (htitle : getArg args "title" ≠ "")
    (hurl : getArg args "url" ≠ "")
    (huser : webhookUser ≠ "") (htok : webhookToken ≠ "") :
    ∃ entries,
      buildActionWithDebug "add_release_related_work" args cloudID webhookUser webhookToken =
        .ok entries ∧
      entries.length = 5 ∧
      (∀ i < 4, jsonField (entries.getD i .null) "type" =
          some (.str "codebarrel.action.log") ∧
        ∃ m, jsonField (entries.getD i .null) "value" =
          some (.str (debugLogPrefix ++ m))) ∧
      jsonField (entries.getD 4 .null) "type" =
        some (.str "jira.issue.outgoing.webhook") ∧
      jsonValueField (entries.getD 4 .null) "url" =
        some (.str (relatedworkURL cloudID (getArg args "version_field"))) ∧
      (∃ pre post, relatedworkURL cloudID (getArg args "version_field") =
        pre ++ cloudID ++ post) ∧
      (∃ pre post, relatedworkURL cloudID (getArg args "version_field") =
        pre ++ getArg args "version_field" ++ post) ∧
      (∃ hkvs : JsonFields, jsonValueField (entries.getD 4 .null) "headers" =
          some (Json.mkArr [Json.obj hkvs]) ∧
        hkvs.lookup "name" = some (.str "Authorization") ∧
        ∃ cred, hkvs.lookup "value" = some (.str ("Basic " ++ cred))) := by
  have hfvf := getArg_filter_ne args "debug" "version_field" (by decide)
  have hfcat := getArg_filter_ne args "debug" "category" (by decide)
  have hftitle := getArg_filter_ne args "debug" "title" (by decide)
  have hfurl := getArg_filter_ne args "debug" "url" (by decide)
  have hm1 : debugLogPrefix ++ "webhook_url = " ++
      relatedworkURL cloudID (getArg args "version_field") ≠ "" :=
    String.append_left_ne_empty _ _ (by decide)
  have hm2 : debugLogPrefix ++ "request_body = " ++
      customBodyJSON (getArg args "category") (getArg args "title") (getArg args "url") ≠ "" :=
    String.append_left_ne_empty _ _ (by decide)
  have hm3 : debugLogPrefix ++ "version_field_value = \x7b\x7bissue." ++
      getArg args "version_field" ++ "\x7d\x7d" ≠ "" :=
    String.append_left_ne_empty _ _ (String.append_left_ne_empty _ _ (by decide))
  have hm4 : debugLogPrefix ++ "version_id = \x7b\x7bissue." ++
      getArg args "version_field" ++ ".format(\"###\")\x7d\x7d" ≠ "" :=
    String.append_left_ne_empty _ _ (String.append_left_ne_empty _ _ (by decide))
  simp only [buildActionWithDebug]
  rw [if_pos (And.intro trivial hdebug)]
  simp only [buildDebugLogs, buildDebugLogs.go, debugMessages, hfvf, hfcat, hftitle, hfurl]
  rw [buildLog_ok _ _ _ _ hm1, buildLog_ok _ _ _ _ hm2, buildLog_ok _ _ _ _ hm3,
    buildLog_ok _ _ _ _ hm4]
  have hne1 : ¬ (getArg args "version_field" = "" ∨ getArg args "category" = "" ∨
      getArg args "title" = "" ∨ getArg args "url" = "") := by tauto
  have hne2 : ¬ (webhookUser = "" ∨ webhookToken = "") := by tauto
  simp only [buildAddReleaseRelatedWork, hfvf, hfcat, hftitle, hfurl, if_neg hne1,
    if_neg hne2, List.cons_append, List.nil_append]
  refine ⟨_, rfl, by simp, ?_, ?_, ?_, ?_, ?_, ?_⟩
  · intro i hi
    interval_cases i
    · exact ⟨by simp [jsonField, Json.mkObj, JsonFields.ofList, JsonFields.lookup],
        "webhook_url = " ++ relatedworkURL cloudID (getArg args "version_field"),
        by simp [jsonField, Json.mkObj, JsonFields.ofList, JsonFields.lookup,
          String.append_assoc]⟩
    · exact ⟨by simp [jsonField, Json.mkObj, JsonFields.ofList, JsonFields.lookup],
        "request_body = " ++
          customBodyJSON (getArg args "category") (getArg args "title") (getArg args "url"),
        by simp [jsonField, Json.mkObj, JsonFields.ofList, JsonFields.lookup,
          String.append_assoc]⟩
    · exact ⟨by simp [jsonField, Json.mkObj, JsonFields.ofList, JsonFields.lookup],
        "version_field_value = \x7b\x7bissue." ++
          (getArg args "version_field" ++ "\x7d\x7d"),
        by simp [jsonField, Json.mkObj, JsonFields.ofList, JsonFields.lookup,
          String.append_assoc]⟩
    · exact ⟨by simp [jsonField, Json.mkObj, JsonFields.ofList, JsonFields.lookup],
        "version_id = \x7b\x7bissue." ++
          (getArg args "version_field" ++ ".format(\"###\")\x7d\x7d"),
        by simp [jsonField, Json.mkObj, JsonFields.ofList, JsonFields.lookup,
          String.append_assoc]⟩
  · simp [jsonField, Json.mkObj, JsonFields.ofList, JsonFields.lookup]
  · simp [jsonValueField, jsonField, Json.mkObj, JsonFields.ofList, JsonFields.lookup]
  · exact ⟨"https://api.atlassian.com/ex/jira/",
      "/rest/api/3/version/\x7b\x7bissue." ++ getArg args "version_field" ++
        ".format(\"###\")\x7d\x7d/relatedwork",
      by simp [relatedworkURL, String.append_assoc]⟩
  · exact ⟨"https://api.atlassian.com/ex/jira/" ++ cloudID ++
        "/rest/api/3/version/\x7b\x7bissue.",
      ".format(\"###\")\x7d\x7d/relatedwork",
      by simp [relatedworkURL, String.append_assoc]⟩
  · refine ⟨JsonFields.ofList [("headerSecure", .bool true), ("id", .null),
      ("name", .str "Authorization"),
      ("value", .str ("Basic " ++ base64Encode (webhookUser ++ ":" ++ webhookToken)))],
      ?_, ?_, ?_⟩
    · simp [jsonValueField, jsonField, Json.mkObj, Json.mkArr, JsonFields.ofList,
        JsonFields.lookup, JsonList.ofList]
    · simp [JsonFields.ofList, JsonFields.lookup]
    · exact ⟨base64Encode (webhookUser ++ ":" ++ webhookToken),
        by simp [JsonFields.ofList, JsonFields.lookup]⟩

/-- Witness for C3: the debug expansion at the spec's example arguments. -/
theorem buildActionWithDebug_debug_witness :
    ∃ entries, buildActionWithDebug "add_release_related_work"
      [("debug", "true"), ("version_field", "customfield_10020"), ("category", "other"),
       ("title", "Deploy X"), ("url", "https://example.com")]
      "cloud-1" "svc@example.com" "token123" = .ok entries ∧ entries.length = 5 := by
  obtain ⟨e, h1, h2, -⟩ := buildActionWithDebug_debug_spec
    [("debug", "true"), ("version_field", "customfield_10020"), ("category", "other"),
     ("title", "Deploy X"), ("url", "https://example.com")]
    "cloud-1" "svc@example.com" "token123"
    (by decide) (by decide) (by decide) (by decide) (by decide) (by decide) (by decide)
  exact ⟨e, h1, h2⟩

/-- `SpineFields` is preserved by appending. -/
theorem spineFields_append : ∀ a b : JsonFields, SpineFields a → SpineFields b →
    SpineFields (a.append b)
  | .nil, b, _, hb => hb
  | .cons k v rest, b, ha, hb => by
    rw [SpineFields] at ha
    rw [JsonFields.append, SpineFields]
    exact ⟨ha.1, spineFields_append rest b ha.2 hb⟩

/-- `SpineFields` is preserved by deleting a key. -/
theorem spineFields_eraseKey (key : String) : ∀ m : JsonFields, SpineFields m →
    SpineFields (m.eraseKey key)
  | .nil, _ => trivial
  | .cons k v rest, h => by
    rw [SpineFields] at h
    rw [JsonFields.eraseKey]
    by_cases hk : k = key
    · rw [if_pos hk]
      exact spineFields_eraseKey key rest h.2
    · rw [if_neg hk, SpineFields]
      exact ⟨h.1, spineFields_eraseKey key rest h.2⟩

/-- A single binding of a key other than `children`/`conditions` satisfies
`SpineFields`. -/
theorem spineFields_single (k : String) (v : Json)
    (h : ¬ (k = "children" ∨ k = "conditions")) :
    SpineFields (.cons k v .nil) := by
  rw [SpineFields, if_neg h]
  exact ⟨trivial, trivial⟩

/-- `SpineFields` is preserved by `setKey` on a key other than
`children`/`conditions`. -/
theorem spineFields_setKey (key : String) (v : Json) (m : JsonFields)
    (hkey : ¬ (key = "children" ∨ key = "conditions")) (h : SpineFields m) :
    SpineFields (m.setKey key v) :=
  spineFields_append _ _ (spineFields_eraseKey key m h) (spineFields_single key v hkey)

-- `stripComponentIDs` establishes the stripped-spine shape everywhere.
mutual
theorem strippedSpine_strip : ∀ j : Json, StrippedSpine (stripComponentIDs j)
  | .null => trivial
  | .bool b => trivial
  | .num n => trivial
  | .str s => trivial
  | .arr xs => trivial
  | .obj kvs => by
    rw [stripComponentIDs, StrippedSpine]
    refine ⟨?_, ?_, ?_, ?_⟩
    · rw [JsonFields.lookup_setKey_ne _ _ _ _ (by decide),
        JsonFields.lookup_setKey_ne _ _ _ _ (by decide),
        JsonFields.lookup_eraseKey_self]
    · rw [JsonFields.lookup_setKey_ne _ _ _ _ (by decide), JsonFields.lookup_setKey_self]
    · rw [JsonFields.lookup_setKey_self]
    · exact spineFields_setKey _ _ _ (by decide)
        (spineFields_setKey _ _ _ (by decide)
          (spineFields_eraseKey _ _ (spineFields_stripFields kvs)))

theorem spineChild_stripChild : ∀ v : Json, SpineChild (stripCIDChild v)
  | .null => trivial
  | .bool b => trivial
  | .num n => trivial
  | .str s => trivial
  | .arr xs => by
    rw [stripCIDChild, SpineChild]
    exact spineList_stripList xs
  | .obj kvs => trivial

theorem spineList_stripList : ∀ xs : JsonList, SpineList (stripCIDList xs)
  | .nil => trivial
  | .cons x xs => by
    rw [stripCIDList, SpineList]
    exact ⟨strippedSpine_strip x, spineList_stripList xs⟩

theorem spineFields_stripFields : ∀ kvs : JsonFields, SpineFields (stripCIDFields kvs)
  | .nil => trivial
  | .cons k v rest => by
    rw [stripCIDFields, SpineFields]
    refine ⟨?_, spineFields_stripFields rest⟩
    by_cases hk : k = "children" ∨ k = "conditions"
    · rw [if_pos hk, if_pos hk]
      exact spineChild_stripChild v
    · rw [if_neg hk]
      trivial
end

/-- C1: the body of the PUT issued by `UpdateRule` is the fetched rule JSON
wrapped in the single-key `{"rule": ...}` envelope, with `uuid`, `created`
and `updated` removed, `name`/`trigger`/`components` replaced by the
caller's values, every component node of the new trigger and components
having its `id` absent and its `parentId`/`conditionParentId` set to null
recursively, and every other fetched top-level field preserved unchanged. -/
theorem updateRulePayload_spec (fetched : JsonFields) (name : String) (trigger : Json)
    (components : JsonList) :
    updateRulePayload fetched name trigger components =
      Json.obj (.cons "rule" (.obj (mergedRuleMap fetched name trigger components)) .nil) ∧
    (mergedRuleMap fetched name trigger components).lookup "uuid" = none ∧
    (mergedRuleMap fetched name trigger components).lookup "created" = none ∧
    (mergedRuleMap fetched name trigger components).lookup "updated" = none ∧
    (mergedRuleMap fetched name trigger components).lookup "name" = some (.str name) ∧
    (mergedRuleMap fetched name trigger components).lookup "trigger" =
      some (stripComponentIDs trigger) ∧
    StrippedSpine (stripComponentIDs trigger) ∧
    (mergedRuleMap fetched name trigger components).lookup "components" =
      some (.arr (stripCIDList components)) ∧
    SpineList (stripCIDList components) ∧
    (∀ k, k ∉ (["uuid", "created", "updated", "name", "trigger", "components"] : List String) →
      (mergedRuleMap fetched name trigger components).lookup k = fetched.lookup k) := by
  refine ⟨rfl, ?_, ?_, ?_, ?_, ?_, strippedSpine_strip trigger, ?_, spineList_stripList components, ?_⟩
  · rw [mergedRuleMap, JsonFields.lookup_setKey_ne _ _ _ _ (by decide),
      JsonFields.lookup_setKey_ne _ _ _ _ (by decide),
      JsonFields.lookup_setKey_ne _ _ _ _ (by decide),
      JsonFields.lookup_eraseKey_ne _ _ (by decide),
      JsonFields.lookup_eraseKey_ne _ _ (by decide),
      JsonFields.lookup_eraseKey_self]
  · rw [mergedRuleMap, JsonFields.lookup_setKey_ne _ _ _ _ (by decide),
      JsonFields.lookup_setKey_ne _ _ _ _ (by decide),
      JsonFields.lookup_setKey_ne _ _ _ _ (by decide),
      JsonFields.lookup_eraseKey_ne _ _ (by decide),
      JsonFields.lookup_eraseKey_self]
  · rw [mergedRuleMap, JsonFields.lookup_setKey_ne _ _ _ _ (by decide),
      JsonFields.lookup_setKey_ne _ _ _ _ (by decide),
      JsonFields.lookup_setKey_ne _ _ _ _ (by decide),
      JsonFields.lookup_eraseKey_self]
  · rw [mergedRuleMap, JsonFields.lookup_setKey_ne _ _ _ _ (by decide),
      JsonFields.lookup_setKey_ne _ _ _ _ (by decide),
      JsonFields.lookup_setKey_self]
  · rw [mergedRuleMap, JsonFields.lookup_setKey_ne _ _ _ _ (by decide),
      JsonFields.lookup_setKey_self]
  · rw [mergedRuleMap, JsonFields.lookup_setKey_self]
  · intro k hk
    simp only [List.mem_cons, List.not_mem_nil, or_false] at hk
    push_neg at hk
    obtain ⟨h1, h2, h3, h4, h5, h6⟩ := hk
    rw [mergedRuleMap, JsonFields.lookup_setKey_ne _ _ _ _ h6,
      JsonFields.lookup_setKey_ne _ _ _ _ h5,
      JsonFields.lookup_setKey_ne _ _ _ _ h4,
      JsonFields.lookup_eraseKey_ne _ _ h3,
      JsonFields.lookup_eraseKey_ne _ _ h2,
      JsonFields.lookup_eraseKey_ne _ _ h1]

/-- Setting a rule's state changes exactly that rule's entry in the store. -/
theorem remoteGetRule_applySetState (uuid v : String) :
    ∀ rules : RemoteRules, remoteGetRule (remoteApplySetState rules uuid v) uuid =
      (remoteGetRule rules uuid).map (fun r => r.setKey "state" (Json.str v))
  | [] => rfl
  | (u, r) :: rest => by
    by_cases hu : u = uuid
    · subst hu
      simp [remoteApplySetState, remoteGetRule]
    · simp [remoteApplySetState, remoteGetRule, hu,
        remoteGetRule_applySetState uuid v rest]

/-- C9: destroying a rule issues only the one disable state-transition call
(never a DELETE); on success the rule remains readable under its identifier,
its state becomes DISABLED, every other attribute is unchanged, and the
caller receives a non-fatal warning rather than a fatal error. -/
theorem destroyRule_spec (baseURL uuid : String) (rules : RemoteRules) (r : JsonFields)
    (h : remoteGetRule rules uuid = some r) :
    (destroyRule baseURL uuid rules).1 = [setRuleStateRequest baseURL uuid false] ∧
    (∀ q ∈ (destroyRule baseURL uuid rules).1, q.method = "PUT" ∧ q.method ≠ "DELETE") ∧
    (∃ summary detail, (destroyRule baseURL uuid rules).2.2 = .warning summary detail) ∧
    (∃ r', remoteGetRule (destroyRule baseURL uuid rules).2.1 uuid = some r' ∧
      r'.lookup "state" = some (.str "DISABLED") ∧
      (∀ k, k ≠ "state" → r'.lookup k = r.lookup k)) := by
  refine ⟨?_, ?_, ?_, ?_⟩
  · simp [destroyRule, h]
  · intro q hq
    simp [destroyRule, h] at hq
    simp [hq, setRuleStateRequest]
  · refine ⟨"Rule disabled, not deleted",
      "Rule " ++ uuid ++ " was disabled because the Jira Automation API does not " ++
        "support deletion. You may want to manually remove it from the Jira UI.", ?_⟩
    simp [destroyRule, h]
  · refine ⟨r.setKey "state" (Json.str "DISABLED"), ?_, ?_, ?_⟩
    · simp [destroyRule, h, remoteGetRule_applySetState]
    · exact JsonFields.lookup_setKey_self _ _ _
    · intro k hk
      exact JsonFields.lookup_setKey_ne _ _ _ _ hk

/-- Witness for C9: destroying a concrete one-rule store disables it in
place. -/
theorem destroyRule_witness :
    (destroyRule "https://api/b" "u-1"
      [("u-1", .cons "state" (.str "ENABLED") (.cons "name" (.str "r") .nil))]).1 =
      [setRuleStateRequest "https://api/b" "u-1" false] ∧
    (∃ r', remoteGetRule (destroyRule "https://api/b" "u-1"
        [("u-1", .cons "state" (.str "ENABLED") (.cons "name" (.str "r") .nil))]).2.1
        "u-1" = some r' ∧ r'.lookup "state" = some (.str "DISABLED") ∧
      (∀ k, k ≠ "state" → r'.lookup k =
        (JsonFields.cons "state" (.str "ENABLED")
          (.cons "name" (.str "r") .nil)).lookup k)) := by
  obtain ⟨h1, -, -, h4⟩ := destroyRule_spec "https://api/b" "u-1"
    [("u-1", .cons "state" (.str "ENABLED") (.cons "name" (.str "r") .nil))]
    (.cons "state" (.str "ENABLED") (.cons "name" (.str "r") .nil)) (by decide)
  exact ⟨h1, h4⟩

/-- A debug-marker log entry parses as a log type tag with a
prefix-carrying string value. -/
theorem isDebugLogEntry_spec (d : Json) (h : isDebugLogEntry d = true) :
    parseTypeTag d = .ok "codebarrel.action.log" ∧
    ∃ v, parseLogValue d = .ok v ∧ debugLogPrefix.data.isPrefixOf v.data = true := by
  match d with
  | .obj kvs =>
    rw [isDebugLogEntry, Bool.and_eq_true] at h
    obtain ⟨h1, h2⟩ := h
    have ht : kvs.lookup "type" = some (.str "codebarrel.action.log") := by
      cases hh : kvs.lookup "type" with
      | none => rw [hh] at h1; exact Bool.noConfusion h1
      | some t' =>
        match t' with
        | .str t =>
          rw [hh] at h1
          have heq : t = "codebarrel.action.log" := of_decide_eq_true h1
          rw [heq]
        | .null => rw [hh] at h1; exact Bool.noConfusion h1
        | .bool b => rw [hh] at h1; exact Bool.noConfusion h1
        | .num n => rw [hh] at h1; exact Bool.noConfusion h1
        | .arr xs => rw [hh] at h1; exact Bool.noConfusion h1
        | .obj m => rw [hh] at h1; exact Bool.noConfusion h1
    refine ⟨by simp [parseTypeTag, ht], ?_⟩
    cases hv : kvs.lookup "value" with
    | none => rw [hv] at h2; exact Bool.noConfusion h2
    | some v' =>
      match v' with
      | .str s => exact ⟨s, by simp [parseLogValue, hv], by rw [hv] at h2; exact h2⟩
      | .null => rw [hv] at h2; exact Bool.noConfusion h2
      | .bool b => rw [hv] at h2; exact Bool.noConfusion h2
      | .num n => rw [hv] at h2; exact Bool.noConfusion h2
      | .arr xs => rw [hv] at h2; exact Bool.noConfusion h2
      | .obj m => rw [hv] at h2; exact Bool.noConfusion h2
  | .null => exact Bool.noConfusion h
  | .bool b => exact Bool.noConfusion h
  | .num n => exact Bool.noConfusion h
  | .str s => exact Bool.noConfusion h
  | .arr xs => exact Bool.noConfusion h

/-- A run of debug-marker log entries parses to no components at all,
whatever the incoming flag and index. -/
theorem parseComponentsAux_allDebug (reverse : ArgMap) :
    ∀ (D : List Json), (∀ d ∈ D, isDebugLogEntry d = true) →
      ∀ (saw : Bool) (i : Nat), ParseComponentsAux reverse saw i D = .ok []
  | [], _, _, _ => rfl
  | d :: D', hD, saw, i => by
    obtain ⟨ht, v, hv, hpre⟩ := isDebugLogEntry_spec d (hD d (by simp))
    rw [ParseComponentsAux]
    simp [ht, hv, hpre, Bind.bind, Except.bind, Except.mapError,
      parseComponentsAux_allDebug reverse D' (fun x hx => hD x (by simp [hx])) true (i + 1)]

/-- The same for the inner-action scan. -/
theorem parseInnerActionsAux_allDebug (reverse : ArgMap) :
    ∀ (D : List Json), (∀ d ∈ D, isDebugLogEntry d = true) →
      ∀ saw : Bool, parseInnerActionsAux reverse saw D = .ok []
  | [], _, _ => rfl
  | d :: D', hD, saw => by
    obtain ⟨ht, v, hv, hpre⟩ := isDebugLogEntry_spec d (hD d (by simp))
    rw [parseInnerActionsAux]
    simp [ht, hv, hpre, Bind.bind, Except.bind, Except.mapError,
      parseInnerActionsAux_allDebug reverse D' (fun x hx => hD x (by simp [hx])) true]

/-- Appending a run of debug-marker log entries after a list that parses
successfully leaves `ParseComponentsAux`'s result unchanged. -/
theorem parseComponentsAux_append (reverse : ArgMap) (D : List Json)
    (hD : ∀ d ∈ D, isDebugLogEntry d = true) :
    ∀ (raws : List Json) (saw : Bool) (i : Nat) (res : List Component),
      ParseComponentsAux reverse saw i raws = .ok res →
      ParseComponentsAux reverse saw i (raws ++ D) = .ok res
  | [], saw, i, res, h => by
    rw [ParseComponentsAux] at h
    cases h
    simpa using parseComponentsAux_allDebug reverse D hD saw i
  | raw :: rest, saw, i, res, h => by
    rw [List.cons_append]
    rw [ParseComponentsAux] at h ⊢
    cases htag : parseTypeTag raw with
    | error e =>
      rw [htag] at h
      simp [Bind.bind, Except.bind, Except.mapError] at h
    | ok t =>
      rw [htag] at h
      simp only [Bind.bind, Except.bind, Except.mapError, htag] at h ⊢
      by_cases hlog : t = "codebarrel.action.log"
      · rw [if_pos hlog] at h ⊢
        cases hval : parseLogValue raw with
        | error e =>
          rw [hval] at h
          simp [Bind.bind, Except.bind, Except.mapError] at h
        | ok v =>
          rw [hval] at h
          simp only [Bind.bind, Except.bind, Except.mapError, hval] at h ⊢
          by_cases hpre : debugLogPrefix.data.isPrefixOf v.data = true
          · rw [if_pos hpre] at h ⊢
            exact parseComponentsAux_append reverse D hD rest true (i + 1) res h
          · rw [if_neg hpre] at h ⊢
            cases hone : parseTopOne reverse saw t raw i with
            | error e =>
              rw [hone] at h
              simp [Bind.bind, Except.bind] at h
            | ok c =>
              rw [hone] at h
              simp only [Bind.bind, Except.bind, hone] at h ⊢
              cases haux : ParseComponentsAux reverse false (i + 1) rest with
              | error e =>
                rw [haux] at h
                simp at h
              | ok rs =>
                rw [haux] at h
                rw [parseComponentsAux_append reverse D hD rest false (i + 1) rs haux]
                exact h
      · rw [if_neg hlog] at h ⊢
        cases hone : parseTopOne reverse saw t raw i with
        | error e =>
          rw [hone] at h
          simp [Bind.bind, Except.bind] at h
        | ok c =>
          rw [hone] at h
          simp only [Bind.bind, Except.bind, hone] at h ⊢
          cases haux : ParseComponentsAux reverse false (i + 1) rest with
          | error e =>
            rw [haux] at h
            simp at h
          | ok rs =>
            rw [haux] at h
            rw [parseComponentsAux_append reverse D hD rest false (i + 1) rs haux]
            exact h

/-- The same for `parseInnerActionsAux`. -/
theorem parseInnerActionsAux_append (reverse : ArgMap) (D : List Json)
    (hD : ∀ d ∈ D, isDebugLogEntry d = true) :
    ∀ (raws : List Json) (saw : Bool) (res : List InnerAction),
      parseInnerActionsAux reverse saw raws = .ok res →
      parseInnerActionsAux reverse saw (raws ++ D) = .ok res
  | [], saw, res, h => by
    rw [parseInnerActionsAux] at h
    cases h
    simpa using parseInnerActionsAux_allDebug reverse D hD saw
  | raw :: rest, saw, res, h => by
    rw [List.cons_append]
    rw [parseInnerActionsAux] at h ⊢
    cases htag : parseTypeTag raw with
    | error e =>
      rw [htag] at h
      simp [Bind.bind, Except.bind, Except.mapError] at h
    | ok t =>
      rw [htag] at h
      simp only [Bind.bind, Except.bind, Except.mapError, htag] at h ⊢
      by_cases hlog : t = "codebarrel.action.log"
      · rw [if_pos hlog] at h ⊢
        cases hval : parseLogValue raw with
        | error e =>
          rw [hval] at h
          simp [Bind.bind, Except.bind, Except.mapError] at h
        | ok v =>
          rw [hval] at h
          simp only [Bind.bind, Except.bind, Except.mapError, hval] at h ⊢
          by_cases hpre : debugLogPrefix.data.isPrefixOf v.data = true
          · rw [if_pos hpre] at h ⊢
            exact parseInnerActionsAux_append reverse D hD rest true res h
          · rw [if_neg hpre] at h ⊢
            cases hone : parseInnerOne reverse saw t raw with
            | error e =>
              rw [hone] at h
              simp [Bind.bind, Except.bind] at h
            | ok a =>
              rw [hone] at h
              simp only [Bind.bind, Except.bind, hone] at h ⊢
              cases haux : parseInnerActionsAux reverse false rest with
              | error e =>
                rw [haux] at h
                simp at h
              | ok rs =>
                rw [haux] at h
                rw [parseInnerActionsAux_append reverse D hD rest false rs haux]
                exact h
      · rw [if_neg hlog] at h ⊢
        cases hone : parseInnerOne reverse saw t raw with
        | error e =>
          rw [hone] at h
          simp [Bind.bind, Except.bind] at h
        | ok a =>
          rw [hone] at h
          simp only [Bind.bind, Except.bind, hone] at h ⊢
          cases haux : parseInnerActionsAux reverse false rest with
          | error e =>
            rw [haux] at h
            simp at h
          | ok rs =>
            rw [haux] at h
            rw [parseInnerActionsAux_append reverse D hD rest false rs haux]
            exact h

/-- C10: a component list ending in one or more trailing debug-marker log
entries (not followed by any further entry) parses successfully to exactly
the parse of the list without them, under both `ParseComponents` and the
then/else scanner `parseInnerActions`: the trailing debug logs produce no
output component, set no debug flag, and raise no error — they are silently
lost. -/
theorem trailing_debug_logs_silently_lost (raws D : List Json) (reverse : ArgMap)
    (hD : ∀ d ∈ D, isDebugLogEntry d = true) (hne : D ≠ []) :
    (∀ res, ParseComponents raws reverse = .ok res →
      ParseComponents (raws ++ D) reverse = .ok res) ∧
    (∀ res, parseInnerActions raws reverse = .ok res →
      parseInnerActions (raws ++ D) reverse = .ok res) :=
  ⟨fun res h => parseComponentsAux_append reverse D hD raws false 0 res h,
   fun res h => parseInnerActionsAux_append reverse D hD raws false res h⟩

/-- Witness for C10: one trailing debug-marker log entry after a plain log
action vanishes from the parse. -/
theorem trailing_debug_logs_witness :
    ParseComponents
      [Json.mkObj [("type", .str "codebarrel.action.log"), ("value", .str "hi")],
       Json.mkObj [("type", .str "codebarrel.action.log"),
         ("value", .str "[DEBUG add_release_related_work] webhook_url = x")]] [] =
      .ok [⟨"log", [("message", "hi")], [], []⟩] := by
  have h := (trailing_debug_logs_silently_lost
    [Json.mkObj [("type", .str "codebarrel.action.log"), ("value", .str "hi")]]
    [Json.mkObj [("type", .str "codebarrel.action.log"),
      ("value", .str "[DEBUG add_release_related_work] webhook_url = x")]] []
    (by decide) (by decide)).1
  exact h [⟨"log", [("message", "hi")], [], []⟩] (by rfl)

/-- A nonempty `getArg` means the key is present. -/
theorem getArg_ne_mem (k : String) :
    ∀ a : ArgMap, getArg a k ≠ "" → k ∈ a.map Prod.fst
  | [], h => absurd rfl h
  | (k', v) :: rest, h => by
    by_cases hk : k' = k
    · simp [hk]
    · right
      refine getArg_ne_mem k rest ?_
      simpa [getArg, lookupArg, hk] using h

/-- A nodup list whose elements all equal `y` and which contains `y` is
`[y]`. -/
theorem all_eq_singleton {α : Type _} : ∀ (l : List α) (y : α), l.Nodup →
    (∀ z ∈ l, z = y) → y ∈ l → l = [y]
  | [], y, _, _, hy => absurd hy (List.not_mem_nil y)
  | w :: r, y, hnd, hall, _ => by
    have hw : w = y := hall w (by simp)
    subst hw
    cases r with
    | nil => rfl
    | cons a r' =>
      have ha : a = w := hall a (by simp)
      rw [List.nodup_cons] at hnd
      exact absurd (by simp [ha.symm]) hnd.1

/-- A nodup list over the two-element universe `{x, y}` containing both is
one of the two orderings. -/
theorem nodup_pair_list {α : Type _} : ∀ (l : List α) (x y : α), l.Nodup →
    (∀ z ∈ l, z = x ∨ z = y) → x ∈ l → y ∈ l → x ≠ y → l = [x, y] ∨ l = [y, x]
  | [], x, _, _, _, hx, _, _ => absurd hx (List.not_mem_nil x)
  | w :: r, x, y, hnd, hall, hx, hy, hxy => by
    rw [List.nodup_cons] at hnd
    rcases hall w (by simp) with hwx | hwy
    · subst hwx
      left
      have hyr : y ∈ r := by
        rcases List.mem_cons.mp hy with h | h
        · exact absurd h.symm hxy
        · exact h
      have hr : r = [y] := all_eq_singleton r y hnd.2 (fun z hz => by
        rcases hall z (by simp [hz]) with hzx | hzy
        · exact absurd (hzx ▸ hz) hnd.1
        · exact hzy) hyr
      rw [hr]
    · subst hwy
      right
      have hxr : x ∈ r := by
        rcases List.mem_cons.mp hx with h | h
        · exact absurd h hxy
        · exact h
      have hr : r = [x] := all_eq_singleton r x hnd.2 (fun z hz => by
        rcases hall z (by simp [hz]) with hzx | hzy
        · exact hzx
        · exact absurd (hzy ▸ hz) hnd.1) hxr
      rw [hr]

/-- C4 counterexample: the round trip as claimed fails for a map with a key
beyond from_status/to_status — parse returns only the two status keys, so
the extra binding is lost and the result is not content-equal to the input
map. -/
theorem statusTransition_roundTrip_counterexample :
    (do
      let j ← BuildTriggerJSON "status_transition"
        [("from_status", "A"), ("to_status", "B"), ("extra", "C")] "c" "p"
      ParseTrigger j) =
      .ok ("status_transition", [("from_status", "A"), ("to_status", "B")]) ∧
    lookupArg [("from_status", "A"), ("to_status", "B")] "extra" = none ∧
    lookupArg [("from_status", "A"), ("to_status", "B"), ("extra", "C")] "extra" = some "C" ∧
    canonArgs [("from_status", "A"), ("to_status", "B")] ≠
      canonArgs [("from_status", "A"), ("to_status", "B"), ("extra", "C")] := by
  refine ⟨by rfl, by rfl, by rfl, by decide⟩

/-- C4 (amended): for every argument map whose keys are exactly
`from_status` and `to_status` (both non-empty), and any cloud and project
identifiers, parsing the built status-transition trigger returns the
original kind and a map content-equal to the original; the scope/event-key
enrichment fields added on build do not appear in the parsed result. -/
theorem statusTransition_roundTrip (a : ArgMap) (c p : String)
    (hkeys : ∀ kv ∈ a, kv.1 = "from_status" ∨ kv.1 = "to_status")
    (hfrom : getArg a "from_status" ≠ "") (hto : getArg a "to_status" ≠ "") :
    (do
      let j ← BuildTriggerJSON "status_transition" a c p
      ParseTrigger j) =
      .ok ("status_transition",
        [("from_status", getArg a "from_status"), ("to_status", getArg a "to_status")]) ∧
    canonArgs [("from_status", getArg a "from_status"),
      ("to_status", getArg a "to_status")] = canonArgs a := by
  constructor
  · have hneg : ¬ (getArg a "from_status" = "" ∨ getArg a "to_status" = "") := by tauto
    simp only [BuildTriggerJSON, if_pos rfl, buildStatusTransition]
    rw [if_neg hneg]
    simp [Bind.bind, Except.bind, Pure.pure, Except.pure, ParseTrigger, parseTypeTag,
      parseStatusTransition, parseStatusList, parseStatusList.go, parseStatusEntry,
      Json.mkObj, Json.mkArr, JsonFields.ofList, JsonFields.lookup, JsonList.ofList]
  · have hdup : ((a.map Prod.fst).dedup).Nodup := List.nodup_dedup _
    have hall : ∀ z ∈ (a.map Prod.fst).dedup, z = "from_status" ∨ z = "to_status" := by
      intro z hz
      rw [List.mem_dedup] at hz
      obtain ⟨kv, hkv, hfst⟩ := List.mem_map.mp hz
      rcases hkeys kv hkv with h | h
      · left; rw [← hfst, h]
      · right; rw [← hfst, h]
    have hfm : "from_status" ∈ (a.map Prod.fst).dedup :=
      List.mem_dedup.mpr (getArg_ne_mem _ a hfrom)
    have htm : "to_status" ∈ (a.map Prod.fst).dedup :=
      List.mem_dedup.mpr (getArg_ne_mem _ a hto)
    rcases nodup_pair_list _ "from_status" "to_status" hdup hall hfm htm (by decide)
      with hl | hl <;>
      simp [canonArgs, hl, sortStrings, insertStr, strLe, charListLe, getArg, lookupArg]

/-- Witness for C4: a concrete two-key status transition round-trips. -/
theorem statusTransition_roundTrip_witness :
    (do
      let j ← BuildTriggerJSON "status_transition"
        [("from_status", "In Progress"), ("to_status", "Done")] "cloud-1" "10001"
      ParseTrigger j) =
      .ok ("status_transition", [("from_status", "In Progress"), ("to_status", "Done")]) := by
  have h := (statusTransition_roundTrip
    [("from_status", "In Progress"), ("to_status", "Done")] "cloud-1" "10001"
    (by decide) (by decide) (by decide)).1
  exact h

/-- `getD` at the length of the left part reads the appended element. -/
theorem getD_append_self {α : Type _} : ∀ (l : List α) (m d : α),
    (l ++ [m]).getD l.length d = m
  | [], m, d => rfl
  | x :: xs, m, d => getD_append_self xs m d

/-- `getD` below the left part's length ignores the appended tail. -/
theorem getD_append_lt {α : Type _} : ∀ (l l' : List α) (i : Nat) (d : α),
    i < l.length → (l ++ l').getD i d = l.getD i d
  | [], _, i, _, h => absurd h (Nat.not_lt_zero i)
  | x :: xs, l', 0, d, _ => rfl
  | x :: xs, l', i + 1, d, h =>
    getD_append_lt xs l' i d (Nat.lt_of_succ_lt_succ h)

/-- C8 counterexample: with an empty alias table `resolveAliases` (and
`unresolveAliases`) hand back the caller's own map, not a fresh one: the
returned reference is the input reference, and mutating the returned map
mutates the caller's map — the claimed mutation safety fails. -/
theorem alias_empty_table_counterexample :
    (resolveAliasesRef ⟨[[("a", "1")]]⟩ 0 []).2 = 0 ∧
    (unresolveAliasesRef ⟨[[("a", "1")]]⟩ 0 []).2 = 0 ∧
    MapHeap.read ⟨[[("a", "1")]]⟩ 0 = [("a", "1")] ∧
    MapHeap.read (MapHeap.setEntry (resolveAliasesRef ⟨[[("a", "1")]]⟩ 0 []).1
      (resolveAliasesRef ⟨[[("a", "1")]]⟩ 0 []).2 "a" "2") 0 = [("a", "2")] ∧
    ([("a", "2")] : ArgMap) ≠ [("a", "1")] := by
  exact ⟨rfl, rfl, rfl, rfl, by decide⟩

/-- C8 (amended): with an empty (or nil) table both alias functions return
the input map itself — content-equal but the very same object, so mutations
through the result are visible to the caller; with a non-empty table they
allocate a fresh map (a reference outside the caller's heap) holding the
transformed content and leave every existing map untouched. -/
theorem aliasRef_spec (h : MapHeap) (r : Nat) (t : ArgMap) :
    (t = [] → resolveAliasesRef h r t = (h, r) ∧ unresolveAliasesRef h r t = (h, r)) ∧
    (t ≠ [] →
      ((resolveAliasesRef h r t).2 = h.maps.length ∧
        (∀ r' < h.maps.length, (resolveAliasesRef h r t).1.read r' = h.read r') ∧
        (resolveAliasesRef h r t).1.read (resolveAliasesRef h r t).2 =
          resolveAliases (h.read r) t) ∧
      ((unresolveAliasesRef h r t).2 = h.maps.length ∧
        (∀ r' < h.maps.length, (unresolveAliasesRef h r t).1.read r' = h.read r') ∧
        (unresolveAliasesRef h r t).1.read (unresolveAliasesRef h r t).2 =
          unresolveAliases (h.read r) t)) := by
  constructor
  · intro ht
    constructor <;> simp [resolveAliasesRef, unresolveAliasesRef, ht]
  · intro ht
    refine ⟨⟨?_, ?_, ?_⟩, ?_, ?_, ?_⟩
    · simp [resolveAliasesRef, ht]
    · intro r' hr'
      simp only [resolveAliasesRef, if_neg ht, MapHeap.read]
      exact getD_append_lt _ _ _ _ hr'
    · simp only [resolveAliasesRef, if_neg ht, MapHeap.read]
      exact getD_append_self _ _ _
    · simp [unresolveAliasesRef, ht]
    · intro r' hr'
      simp only [unresolveAliasesRef, if_neg ht, MapHeap.read]
      exact getD_append_lt _ _ _ _ hr'
    · simp only [unresolveAliasesRef, if_neg ht, MapHeap.read]
      exact getD_append_self _ _ _

/-- With enough fuel, `log2F` brackets its input between consecutive powers
of two. -/
theorem log2F_spec : ∀ (fuel n : Nat), n ≤ fuel → 1 ≤ n →
    2 ^ (log2F fuel n) ≤ n ∧ n < 2 ^ (log2F fuel n + 1)
  | 0, n, hle, h1 => by omega
  | fuel + 1, n, hle, h1 => by
    rw [log2F]
    by_cases h2 : n ≤ 1
    · rw [if_pos h2]
      have hn : n = 1 := Nat.le_antisymm h2 h1
      subst hn
      exact ⟨by norm_num, by norm_num⟩
    · rw [if_neg h2]
      have hn2 : 2 ≤ n := by omega
      have hm1 : 1 ≤ n / 2 := by omega
      have hmle : n / 2 ≤ fuel := by
        have := Nat.div_lt_self (by omega : 0 < n) (by norm_num : 1 < 2)
        omega
      obtain ⟨ih1, ih2⟩ := log2F_spec fuel (n / 2) hmle hm1
      constructor
      · rw [pow_succ]
        have h3 : 2 ^ log2F fuel (n / 2) * 2 ≤ n / 2 * 2 := Nat.mul_le_mul_right 2 ih1
        omega
      · rw [pow_succ]
        have h3 : (n / 2 + 1) * 2 ≤ 2 ^ (log2F fuel (n / 2) + 1) * 2 :=
          Nat.mul_le_mul_right 2 ih2
        omega

/-- `floorLog2` brackets a positive input between consecutive powers of 2. -/
theorem floorLog2_spec (n : Nat) (h1 : 1 ≤ n) :
    2 ^ floorLog2 n ≤ n ∧ n < 2 ^ (floorLog2 n + 1) :=
  log2F_spec n n (le_refl n) h1

/-- `floorLog2` is characterized by its bracketing property. -/
theorem floorLog2_eq (n a : Nat) (hlo : 2 ^ a ≤ n) (hhi : n < 2 ^ (a + 1)) :
    floorLog2 n = a := by
  have h1 : 1 ≤ n := le_trans (Nat.one_le_two_pow) hlo
  obtain ⟨hl, hh⟩ := floorLog2_spec n h1
  have h2 : 2 ^ floorLog2 n < 2 ^ (a + 1) := lt_of_le_of_lt hl hhi
  have h3 : 2 ^ a < 2 ^ (floorLog2 n + 1) := lt_of_le_of_lt hlo hh
  have h4 : floorLog2 n < a + 1 := (Nat.pow_lt_pow_iff_right (by norm_num)).mp h2
  have h5 : a < floorLog2 n + 1 := (Nat.pow_lt_pow_iff_right (by norm_num)).mp h3
  omega

/-- Rounding an exact multiple of `2^e` at scale `e` changes nothing. -/
theorem roundAt_mul (q e : Nat) : roundAt (q * 2 ^ e) e = q * 2 ^ e := by
  rw [roundAt]
  have hmod : q * 2 ^ e % 2 ^ e = 0 := Nat.mul_mod_left q (2 ^ e)
  have hdiv : q * 2 ^ e / 2 ^ e = q := Nat.mul_div_cancel q (Nat.pos_pow_of_pos e (by norm_num))
  rw [hmod, hdiv, if_neg]
  push_neg
  constructor
  · exact Nat.zero_le _
  · intro h0
    exact absurd h0.symm (Nat.pos_iff_ne_zero.mp (Nat.pos_pow_of_pos _ (by norm_num)))

/-- Exactly representable products round to themselves: `q' * 2^e` with
`2^52 ≤ q' ≤ 2^53` is a float64-representable integer. -/
theorem roundNat_representable (q' e : Nat) (he : 1 ≤ e) (hlo : 2 ^ 52 ≤ q')
    (hhi : q' ≤ 2 ^ 53) : roundNat (q' * 2 ^ e) = q' * 2 ^ e := by
  by_cases hsmall : q' * 2 ^ e ≤ 2 ^ 53
  · rw [roundNat, if_pos hsmall]
  · rw [roundNat, if_neg hsmall]
    by_cases hq53 : q' = 2 ^ 53
    · subst hq53
      have hm : (2 : Nat) ^ 53 * 2 ^ e = 2 ^ 52 * 2 ^ (e + 1) := by
        rw [← pow_add, ← pow_add]
        congr 1
        omega
      have hfl : floorLog2 (2 ^ 53 * 2 ^ e) = 53 + e := by
        have : (2 : Nat) ^ 53 * 2 ^ e = 2 ^ (53 + e) := (pow_add 2 53 e).symm
        rw [this]
        exact floorLog2_eq _ _ (le_refl _)
          ((Nat.pow_lt_pow_iff_right (by norm_num)).mpr (by omega))
      rw [hfl]
      have he' : 53 + e - 52 = e + 1 := by omega
      rw [he', hm, roundAt_mul]
    · have hq' : q' < 2 ^ 53 := lt_of_le_of_ne hhi hq53
      have hfl : floorLog2 (q' * 2 ^ e) = 52 + e := by
        refine floorLog2_eq _ _ ?_ ?_
        · calc (2 : Nat) ^ (52 + e) = 2 ^ 52 * 2 ^ e := pow_add 2 52 e
          _ ≤ q' * 2 ^ e := Nat.mul_le_mul_right _ hlo
        · have hk : 0 < 2 ^ e := Nat.pos_pow_of_pos e (by norm_num)
          have h1 : q' * 2 ^ e < 2 ^ 53 * 2 ^ e := mul_lt_mul_of_pos_right hq' hk
          have h2 : (2 : Nat) ^ 53 * 2 ^ e = 2 ^ (52 + e + 1) := by
            rw [← pow_add]
            congr 1
            omega
          exact h2 ▸ h1
      rw [hfl]
      have he' : 52 + e - 52 = e := by omega
      rw [he', roundAt_mul]

/-- Small magnitudes are untouched by float64 rounding. -/
theorem roundNat_small (n : Nat) (h : n ≤ 2 ^ 53) : roundNat n = n := by
  rw [roundNat, if_pos h]

/-- Float64 rounding of integers is idempotent. -/
theorem roundNat_idem (n : Nat) : roundNat (roundNat n) = roundNat n := by
  by_cases h : n ≤ 2 ^ 53
  · rw [roundNat_small n h, roundNat_small n h]
  · have h1 : 1 ≤ n := by
      have h2 : (1 : Nat) ≤ 2 ^ 53 := Nat.one_le_two_pow
      omega
    obtain ⟨hlo, hhi⟩ := floorLog2_spec n h1
    have hL53 : 53 ≤ floorLog2 n := by
      have hx : (2 : Nat) ^ 53 < 2 ^ (floorLog2 n + 1) := by
        have h3 : 2 ^ 53 < n := by omega
        exact lt_trans h3 hhi
      have h4 := (Nat.pow_lt_pow_iff_right (by norm_num : 1 < 2)).mp hx
      omega
    have he1 : 1 ≤ floorLog2 n - 52 := by omega
    have hpos : 0 < 2 ^ (floorLog2 n - 52) := Nat.pos_pow_of_pos _ (by norm_num)
    have hq_lo : 2 ^ 52 ≤ n / 2 ^ (floorLog2 n - 52) := by
      rw [Nat.le_div_iff_mul_le hpos]
      have h5 : (2 : Nat) ^ 52 * 2 ^ (floorLog2 n - 52) = 2 ^ floorLog2 n := by
        rw [← pow_add]
        congr 1
        omega
      omega
    have hq_hi : n / 2 ^ (floorLog2 n - 52) < 2 ^ 53 := by
      rw [Nat.div_lt_iff_lt_mul hpos]
      have h6 : (2 : Nat) ^ 53 * 2 ^ (floorLog2 n - 52) = 2 ^ (floorLog2 n + 1) := by
        rw [← pow_add]
        congr 1
        omega
      omega
    have hv : roundNat n = roundAt n (floorLog2 n - 52) := by
      rw [roundNat, if_neg h]
    rw [hv, roundAt]
    by_cases hcond : 2 ^ (floorLog2 n - 52 - 1) < n % 2 ^ (floorLog2 n - 52) ∨
        (n % 2 ^ (floorLog2 n - 52) = 2 ^ (floorLog2 n - 52 - 1) ∧
          (n / 2 ^ (floorLog2 n - 52)) % 2 = 1)
    · rw [if_pos hcond]
      exact roundNat_representable _ _ he1 (by omega) (by omega)
    · rw [if_neg hcond]
      exact roundNat_representable _ _ he1 hq_lo (le_of_lt hq_hi)

/-- `roundInt` idempotence. -/
theorem roundInt_idem (i : Int) : roundInt (roundInt i) = roundInt i := by
  by_cases h : i < 0
  · have hv : roundInt i = -(roundNat i.natAbs : Int) := by rw [roundInt, if_pos h]
    rw [hv, roundInt]
    by_cases h2 : -(roundNat i.natAbs : Int) < 0
    · rw [if_pos h2]
      simp [roundNat_idem]
    · rw [if_neg h2]
      have hk : (roundNat i.natAbs : Int) = 0 := by omega
      rw [show (-(roundNat i.natAbs : Int)).natAbs = roundNat i.natAbs by simp]
      rw [roundNat_idem]
      omega
  · have hv : roundInt i = (roundNat i.natAbs : Int) := by rw [roundInt, if_neg h]
    rw [hv, roundInt]
    have h2 : ¬ ((roundNat i.natAbs : Int) < 0) := by omega
    rw [if_neg h2]
    simp [roundNat_idem]

/-- Integers of magnitude at most `2^53` are untouched. -/
theorem roundInt_small (i : Int) (h : i.natAbs ≤ 2 ^ 53) : roundInt i = i := by
  by_cases hneg : i < 0
  · rw [roundInt, if_pos hneg, roundNat_small _ h]
    omega
  · rw [roundInt, if_neg hneg, roundNat_small _ h]
    omega

-- Decoding is idempotent: the numbers of a decoded tree are already
-- float64-representable.
mutual
theorem decodeJson_idem : ∀ j : Json, decodeJson (decodeJson j) = decodeJson j
  | .null => rfl
  | .bool b => rfl
  | .str s => rfl
  | .num n => by rw [decodeJson, decodeJson, roundInt_idem]
  | .arr xs => by rw [decodeJson, decodeJson, decodeList_idem xs]
  | .obj kvs => by rw [decodeJson, decodeJson, decodeFields_idem kvs]

theorem decodeList_idem : ∀ xs : JsonList, decodeList (decodeList xs) = decodeList xs
  | .nil => rfl
  | .cons x xs => by rw [decodeList, decodeList, decodeJson_idem x, decodeList_idem xs]

theorem decodeFields_idem : ∀ kvs : JsonFields, decodeFields (decodeFields kvs) = decodeFields kvs
  | .nil => rfl
  | .cons k v rest => by rw [decodeFields, decodeFields, decodeJson_idem v, decodeFields_idem rest]
end

-- Trees whose numbers are small decode to themselves.
mutual
theorem decodeJson_small : ∀ j : Json, smallNums j = true → decodeJson j = j
  | .null, _ => rfl
  | .bool b, _ => rfl
  | .str s, _ => rfl
  | .num n, h => by
    rw [smallNums] at h
    rw [decodeJson, roundInt_small n (of_decide_eq_true h)]
  | .arr xs, h => by
    rw [smallNums] at h
    rw [decodeJson, decodeList_small xs h]
  | .obj kvs, h => by
    rw [smallNums] at h
    rw [decodeJson, decodeFields_small kvs h]

theorem decodeList_small : ∀ xs : JsonList, smallNumsList xs = true → decodeList xs = xs
  | .nil, _ => rfl
  | .cons x xs, h => by
    rw [smallNumsList, Bool.and_eq_true] at h
    rw [decodeList, decodeJson_small x h.1, decodeList_small xs h.2]

theorem decodeFields_small : ∀ kvs : JsonFields, smallNumsFields kvs = true → decodeFields kvs = kvs
  | .nil, _ => rfl
  | .cons k v rest, h => by
    rw [smallNumsFields, Bool.and_eq_true] at h
    rw [decodeFields, decodeJson_small v h.1, decodeFields_small rest h.2]
end

/-- C7 counterexample: canonicalization does not preserve every number —
decoding goes through float64, so the integer `2^53 + 1` is rounded to
`2^53` and the canonical output token denotes a different value. -/
theorem canonicalize_precision_counterexample :
    decodeJson (Json.num 9007199254740993) = Json.num 9007199254740992 ∧
    normalizeRawJSON (Json.num 9007199254740993) = "9007199254740992" ∧
    (9007199254740993 : Int) ≠ 9007199254740992 :=
  ⟨by decide, by decide, by decide⟩

/-- C7 (amended): for documents all of whose numbers are integers of
magnitude at most `2^53`, the float64 decode changes nothing, and the
canonical output of `normalizeRawJSON` renders exactly the sorted, stripped
input — every number token denotes exactly its input value. -/
theorem canonicalize_preserves_small_numbers (raw : Json) (h : smallNums raw = true) :
    decodeJson raw = raw ∧
    normalizeRawJSON raw = renderJson (sortKeysJson (stripAPIFields raw)) := by
  refine ⟨decodeJson_small raw h, ?_⟩
  rw [normalizeRawJSON, canonJson, decodeJson_small raw h]

/-- Witness for C7 at a concrete small-number document. -/
theorem canonicalize_small_numbers_witness :
    decodeJson (Json.mkObj [("schemaVersion", .num 1), ("n", .num 9007199254740992)]) =
      Json.mkObj [("schemaVersion", .num 1), ("n", .num 9007199254740992)] ∧
    normalizeRawJSON (Json.mkObj [("schemaVersion", .num 1), ("n", .num 9007199254740992)]) =
      renderJson (sortKeysJson (stripAPIFields
        (Json.mkObj [("schemaVersion", .num 1), ("n", .num 9007199254740992)]))) :=
  canonicalize_preserves_small_numbers _ (by decide)

/-- `charListLe` is reflexive. -/
theorem charListLe_refl : ∀ a : List Char, charListLe a a = true
  | [] => rfl
  | c :: cs => by simp [charListLe, charListLe_refl cs]

/-- `charListLe` is total. -/
theorem charListLe_total : ∀ a b : List Char, charListLe a b = true ∨ charListLe b a = true
  | [], _ => Or.inl rfl
  | _ :: _, [] => Or.inr rfl
  | c :: cs, d :: ds => by
    by_cases h1 : c.toNat < d.toNat
    · left
      simp [charListLe, h1]
    · by_cases h2 : d.toNat < c.toNat
      · right
        simp [charListLe, h2]
      · rcases charListLe_total cs ds with h | h <;> [left; right] <;>
          simp [charListLe, h1, h2, h]

/-- `charListLe` is transitive. -/
theorem charListLe_trans : ∀ a b c : List Char, charListLe a b = true →
    charListLe b c = true → charListLe a c = true
  | [], _, _, _, _ => rfl
  | x :: xs, [], _, h1, _ => by simp [charListLe] at h1
  | x :: xs, y :: ys, [], _, h2 => by simp [charListLe] at h2
  | x :: xs, y :: ys, z :: zs, h1, h2 => by
    simp only [charListLe] at h1 h2 ⊢
    split_ifs at h1 h2 ⊢ <;> try rfl
    all_goals try omega
    all_goals try simp_all
    exact charListLe_trans xs ys zs h1 h2

/-- `strLe` is reflexive. -/
theorem strLe_refl (a : String) : strLe a a = true := charListLe_refl a.data

/-- `strLe` is total. -/
theorem strLe_total (a b : String) : strLe a b = true ∨ strLe b a = true :=
  charListLe_total a.data b.data

/-- `strLe` is transitive. -/
theorem strLe_trans (a b c : String) (h1 : strLe a b = true) (h2 : strLe b c = true) :
    strLe a c = true :=
  charListLe_trans a.data b.data c.data h1 h2

/-- The tail of a sorted field list is sorted. -/
theorem FieldsSorted.tail : ∀ {k : String} {v : Json} {l : JsonFields},
    FieldsSorted (.cons k v l) → FieldsSorted l := by
  intro k v l h
  match l with
  | .nil => trivial
  | .cons k' v' rest => exact h.2

/-- `keyLeAll` is antitone in the key. -/
theorem keyLeAll.mono {a b : String} (hab : strLe a b = true) :
    ∀ l : JsonFields, keyLeAll b l → keyLeAll a l
  | .nil, _ => trivial
  | .cons k _ rest, h => ⟨strLe_trans a b k hab h.1, keyLeAll.mono hab rest h.2⟩

/-- The head key of a sorted field list is `<=` every key of the tail. -/
theorem FieldsSorted.head_le_all : ∀ {k : String} {v : Json} {l : JsonFields},
    FieldsSorted (.cons k v l) → keyLeAll k l := by
  intro k v l h
  match l with
  | .nil => trivial
  | .cons k' v' rest =>
    exact ⟨h.1, keyLeAll.mono h.1 rest (FieldsSorted.head_le_all h.2)⟩

/-- Erasing a key preserves `keyLeAll`. -/
theorem keyLeAll.erase (k key : String) : ∀ l : JsonFields,
    keyLeAll k l → keyLeAll k (l.eraseKey key)
  | .nil, _ => trivial
  | .cons k' v' rest, h => by
    by_cases hk : k' = key
    · simp only [JsonFields.eraseKey, if_pos hk]
      exact keyLeAll.erase k key rest h.2
    · simp only [JsonFields.eraseKey, if_neg hk]
      exact ⟨h.1, keyLeAll.erase k key rest h.2⟩

/-- Inserting a key that is `<=` every key of the list puts it at the head. -/
theorem insertField_of_le (k : String) (v : Json) : ∀ l : JsonFields,
    keyLeAll k l → insertField k v l = .cons k v l
  | .nil, _ => rfl
  | .cons k' v' rest, h => by simp [insertField, h.1]

/-- Insertion preserves sortedness. -/
theorem FieldsSorted.insert (k : String) (v : Json) :
    ∀ l : JsonFields, FieldsSorted l → FieldsSorted (insertField k v l)
  | .nil, _ => trivial
  | .cons k' v' .nil, _ => by
    by_cases h : strLe k k' = true
    · simp [insertField, h, FieldsSorted]
    · have hk : strLe k' k = true := (strLe_total k k').resolve_left h
      simp [insertField, h, FieldsSorted, hk]
  | .cons k' v' (.cons k'' v'' rest), hs => by
    obtain ⟨h1, hs'⟩ := hs
    by_cases h : strLe k k' = true
    · simp only [insertField, if_pos h]
      exact ⟨h, h1, hs'⟩
    · have hk : strLe k' k = true := (strLe_total k k').resolve_left h
      have ih := FieldsSorted.insert k v (.cons k'' v'' rest) hs'
      by_cases h2 : strLe k k'' = true
      · simp only [insertField, if_neg h, if_pos h2]
        exact ⟨hk, h2, hs'⟩
      · simp only [insertField, if_neg h, if_neg h2]
        refine ⟨h1, ?_⟩
        simpa [insertField, if_neg h2] using ih

/-- `sortFields` sorts. -/
theorem sortFields_sorted : ∀ l : JsonFields, FieldsSorted (sortFields l)
  | .nil => trivial
  | .cons k v rest => FieldsSorted.insert k v (sortFields rest) (sortFields_sorted rest)

/-- `sortFields` fixes sorted lists. -/
theorem sortFields_of_sorted : ∀ l : JsonFields, FieldsSorted l → sortFields l = l
  | .nil, _ => rfl
  | .cons k v rest, hs => by
    have ih := sortFields_of_sorted rest (FieldsSorted.tail hs)
    simp only [sortFields, ih]
    exact insertField_of_le k v rest (FieldsSorted.head_le_all hs)

/-- `sortFields` is idempotent. -/
theorem sortFields_idem (l : JsonFields) : sortFields (sortFields l) = sortFields l :=
  sortFields_of_sorted _ (sortFields_sorted l)

/-- Erasing the inserted key cancels the insertion. -/
theorem eraseKey_insertField_self (key : String) (v : Json) : ∀ l : JsonFields,
    (insertField key v l).eraseKey key = l.eraseKey key
  | .nil => by simp [insertField, JsonFields.eraseKey]
  | .cons k' v' rest => by
    by_cases h : strLe key k' = true
    · simp [insertField, h, JsonFields.eraseKey]
    · by_cases hk : k' = key
      · subst hk
        exact absurd (strLe_refl k') h
      · simp [insertField, h, JsonFields.eraseKey, hk,
          eraseKey_insertField_self key v rest]

/-- On a sorted list, erasing a different key commutes with insertion. -/
theorem eraseKey_insertField_ne (k key : String) (v : Json) (hne : k ≠ key) :
    ∀ l : JsonFields, FieldsSorted l →
      (insertField k v l).eraseKey key = insertField k v (l.eraseKey key)
  | .nil, _ => by simp [insertField, JsonFields.eraseKey, hne]
  | .cons k' v' rest, hs => by
    by_cases h : strLe k k' = true
    · have hall : keyLeAll k (.cons k' v' rest) :=
        ⟨h, keyLeAll.mono h rest (FieldsSorted.head_le_all hs)⟩
      have hall' := keyLeAll.erase k key _ hall
      rw [insertField_of_le k v _ hall']
      simp [insertField, h, JsonFields.eraseKey, hne]
    · have ih := eraseKey_insertField_ne k key v hne rest (FieldsSorted.tail hs)
      by_cases hk : k' = key
      · have e1 : (JsonFields.cons k' v' rest).eraseKey key = rest.eraseKey key := by
          simp [JsonFields.eraseKey, hk]
        have e2 : insertField k v (JsonFields.cons k' v' rest)
            = JsonFields.cons k' v' (insertField k v rest) := by
          simp [insertField, h]
        rw [e1, e2]
        have e3 : (JsonFields.cons k' v' (insertField k v rest)).eraseKey key
            = (insertField k v rest).eraseKey key := by
          simp [JsonFields.eraseKey, hk]
        rw [e3, ih]
      · have e1 : (JsonFields.cons k' v' rest).eraseKey key
            = JsonFields.cons k' v' (rest.eraseKey key) := by
          simp [JsonFields.eraseKey, hk]
        have e2 : insertField k v (JsonFields.cons k' v' rest)
            = JsonFields.cons k' v' (insertField k v rest) := by
          simp [insertField, h]
        have e4 : insertField k v (JsonFields.cons k' v' (rest.eraseKey key))
            = JsonFields.cons k' v' (insertField k v (rest.eraseKey key)) := by
          simp [insertField, h]
        rw [e1, e2, e4]
        have e3 : (JsonFields.cons k' v' (insertField k v rest)).eraseKey key
            = JsonFields.cons k' v' ((insertField k v rest).eraseKey key) := by
          simp [JsonFields.eraseKey, hk]
        rw [e3, ih]

/-- Erasing a key commutes with key sorting. -/
theorem eraseKey_sortFields (key : String) : ∀ l : JsonFields,
    (sortFields l).eraseKey key = sortFields (l.eraseKey key)
  | .nil => rfl
  | .cons k v rest => by
    by_cases hk : k = key
    · subst hk
      simp only [sortFields, JsonFields.eraseKey, if_pos rfl]
      rw [eraseKey_insertField_self, eraseKey_sortFields k rest]
      simp
    · simp only [sortFields, JsonFields.eraseKey, if_neg hk]
      rw [eraseKey_insertField_ne k key _ hk _ (sortFields_sorted rest),
        eraseKey_sortFields key rest]

/-- Value maps commute with erasing a key. -/
theorem mapValues_eraseKey (g : String → Json → Json) (key : String) :
    ∀ l : JsonFields, mapValues g (l.eraseKey key) = (mapValues g l).eraseKey key
  | .nil => rfl
  | .cons k v rest => by
    by_cases hk : k = key
    · simp [JsonFields.eraseKey, hk, mapValues, mapValues_eraseKey g key rest]
    · simp [JsonFields.eraseKey, hk, mapValues, mapValues_eraseKey g key rest]

/-- Value maps commute with insertion. -/
theorem mapValues_insertField (g : String → Json → Json) (k : String) (v : Json) :
    ∀ l : JsonFields, mapValues g (insertField k v l) = insertField k (g k v) (mapValues g l)
  | .nil => rfl
  | .cons k' v' rest => by
    by_cases h : strLe k k' = true
    · simp [insertField, h, mapValues]
    · simp [insertField, h, mapValues, mapValues_insertField g k v rest]

/-- Value maps commute with key sorting. -/
theorem mapValues_sortFields (g : String → Json → Json) :
    ∀ l : JsonFields, mapValues g (sortFields l) = sortFields (mapValues g l)
  | .nil => rfl
  | .cons k v rest => by
    simp only [sortFields, mapValues, mapValues_insertField, mapValues_sortFields g rest]

/-- `stripAPIEntries` is a key-preserving value map. -/
theorem stripAPIEntries_eq_mapValues : ∀ l : JsonFields,
    stripAPIEntries l =
      mapValues (fun k v => if k = "children" ∨ k = "conditions" then stripAPIChild v else v) l
  | .nil => rfl
  | .cons k v rest => by
    simp [stripAPIEntries, mapValues, stripAPIEntries_eq_mapValues rest]

/-- `sortKeysFields` is a key-preserving value map. -/
theorem sortKeysFields_eq_mapValues : ∀ l : JsonFields,
    sortKeysFields l = mapValues (fun _ v => sortKeysJson v) l
  | .nil => rfl
  | .cons k v rest => by
    simp [sortKeysFields, mapValues, sortKeysFields_eq_mapValues rest]

/-- `decodeFields` is a key-preserving value map. -/
theorem decodeFields_eq_mapValues : ∀ l : JsonFields,
    decodeFields l = mapValues (fun _ v => decodeJson v) l
  | .nil => rfl
  | .cons k v rest => by
    simp [decodeFields, mapValues, decodeFields_eq_mapValues rest]

/-- Erasures of different keys commute. -/
theorem eraseKey_comm (a b : String) : ∀ l : JsonFields,
    (l.eraseKey b).eraseKey a = (l.eraseKey a).eraseKey b
  | .nil => rfl
  | .cons k v rest => by
    have ih := eraseKey_comm a b rest
    by_cases ha : k = a <;> by_cases hb : k = b <;>
      simp_all [JsonFields.eraseKey]

/-- Erasing a key twice is erasing it once. -/
theorem eraseKey_idem (a : String) : ∀ l : JsonFields,
    (l.eraseKey a).eraseKey a = l.eraseKey a
  | .nil => rfl
  | .cons k v rest => by
    by_cases ha : k = a <;> simp [JsonFields.eraseKey, ha, eraseKey_idem a rest]

-- Key sorting commutes with recursive API-field stripping: both visit each
-- value once (sorting only permutes keys, stripping only rewrites values and
-- erases three fixed keys).
mutual
theorem stripAPIFields_sortKeysJson : ∀ j : Json,
    stripAPIFields (sortKeysJson j) = sortKeysJson (stripAPIFields j)
  | .null | .bool _ | .num _ | .str _ => rfl
  | .arr xs => by
    simp only [stripAPIFields, sortKeysJson, stripAPIList_sortKeysList xs]
  | .obj kvs => by
    simp only [stripAPIFields, sortKeysJson]
    rw [stripAPIEntries_eq_mapValues, mapValues_sortFields, ← stripAPIEntries_eq_mapValues,
      stripAPIEntries_sortKeysFields kvs, eraseKey_sortFields, eraseKey_sortFields,
      eraseKey_sortFields, sortKeysFields_eq_mapValues, sortKeysFields_eq_mapValues,
      mapValues_eraseKey, mapValues_eraseKey, mapValues_eraseKey]

theorem stripAPIList_sortKeysList : ∀ xs : JsonList,
    stripAPIList (sortKeysList xs) = sortKeysList (stripAPIList xs)
  | .nil => rfl
  | .cons x xs => by
    simp only [stripAPIList, sortKeysList, stripAPIFields_sortKeysJson x,
      stripAPIList_sortKeysList xs]

theorem stripAPIEntries_sortKeysFields : ∀ kvs : JsonFields,
    stripAPIEntries (sortKeysFields kvs) = sortKeysFields (stripAPIEntries kvs)
  | .nil => rfl
  | .cons k v rest => by
    by_cases hk : k = "children" ∨ k = "conditions"
    · simp only [stripAPIEntries, sortKeysFields, if_pos hk,
        stripAPIChild_sortKeysJson v, stripAPIEntries_sortKeysFields rest]
    · simp only [stripAPIEntries, sortKeysFields, if_neg hk,
        stripAPIEntries_sortKeysFields rest]

theorem stripAPIChild_sortKeysJson : ∀ v : Json,
    stripAPIChild (sortKeysJson v) = sortKeysJson (stripAPIChild v)
  | .null | .bool _ | .num _ | .str _ => rfl
  | .arr xs => by
    simp only [sortKeysJson, stripAPIChild, stripAPIList_sortKeysList xs]
  | .obj kvs => rfl
end

/-- Erasing id/parentId/conditionParentId twice is erasing them once. -/
theorem erase3_erase3 (l : JsonFields) :
    ((((((l.eraseKey "id").eraseKey "parentId").eraseKey "conditionParentId").eraseKey
      "id").eraseKey "parentId").eraseKey "conditionParentId") =
    ((l.eraseKey "id").eraseKey "parentId").eraseKey "conditionParentId" := by
  rw [eraseKey_comm "id" "conditionParentId" ((l.eraseKey "id").eraseKey "parentId"),
    eraseKey_comm "id" "parentId" (l.eraseKey "id"),
    eraseKey_idem "id" l,
    eraseKey_comm "parentId" "conditionParentId" ((l.eraseKey "id").eraseKey "parentId"),
    eraseKey_idem "parentId" (l.eraseKey "id"),
    eraseKey_idem "conditionParentId" ((l.eraseKey "id").eraseKey "parentId")]

-- Recursive API-field stripping is idempotent.
mutual
theorem stripAPIFields_idem : ∀ j : Json, stripAPIFields (stripAPIFields j) = stripAPIFields j
  | .null | .bool _ | .num _ | .str _ | .arr _ => rfl
  | .obj kvs => by
    simp only [stripAPIFields]
    rw [stripAPIEntries_eq_mapValues, mapValues_eraseKey, mapValues_eraseKey, mapValues_eraseKey,
      ← stripAPIEntries_eq_mapValues, stripAPIEntries_idem kvs, erase3_erase3]

theorem stripAPIList_idem : ∀ xs : JsonList, stripAPIList (stripAPIList xs) = stripAPIList xs
  | .nil => rfl
  | .cons x xs => by
    simp only [stripAPIList, stripAPIFields_idem x, stripAPIList_idem xs]

theorem stripAPIEntries_idem : ∀ kvs : JsonFields,
    stripAPIEntries (stripAPIEntries kvs) = stripAPIEntries kvs
  | .nil => rfl
  | .cons k v rest => by
    by_cases hk : k = "children" ∨ k = "conditions"
    · simp only [stripAPIEntries, if_pos hk, stripAPIChild_idem v, stripAPIEntries_idem rest]
    · simp only [stripAPIEntries, if_neg hk, stripAPIEntries_idem rest]

theorem stripAPIChild_idem : ∀ v : Json, stripAPIChild (stripAPIChild v) = stripAPIChild v
  | .null | .bool _ | .num _ | .str _ | .obj _ => rfl
  | .arr xs => by
    simp only [stripAPIChild, stripAPIList_idem xs]
end

-- Recursive key sorting is idempotent.
mutual
theorem sortKeysJson_idem : ∀ j : Json, sortKeysJson (sortKeysJson j) = sortKeysJson j
  | .null | .bool _ | .num _ | .str _ => rfl
  | .arr xs => by
    simp only [sortKeysJson, sortKeysList_idem xs]
  | .obj kvs => by
    simp only [sortKeysJson]
    rw [sortKeysFields_eq_mapValues, mapValues_sortFields, ← sortKeysFields_eq_mapValues,
      sortKeysFields_idem kvs, sortFields_idem]

theorem sortKeysList_idem : ∀ xs : JsonList, sortKeysList (sortKeysList xs) = sortKeysList xs
  | .nil => rfl
  | .cons x xs => by
    simp only [sortKeysList, sortKeysJson_idem x, sortKeysList_idem xs]

theorem sortKeysFields_idem : ∀ kvs : JsonFields,
    sortKeysFields (sortKeysFields kvs) = sortKeysFields kvs
  | .nil => rfl
  | .cons k v rest => by
    simp only [sortKeysFields, sortKeysJson_idem v, sortKeysFields_idem rest]
end

-- float64 decoding commutes with API-field stripping (stripping only deletes
-- keys and permutes nothing numeric).
mutual
theorem decodeJson_stripAPIFields : ∀ j : Json,
    decodeJson (stripAPIFields j) = stripAPIFields (decodeJson j)
  | .null | .bool _ | .num _ | .str _ | .arr _ => rfl
  | .obj kvs => by
    simp only [stripAPIFields, decodeJson]
    rw [decodeFields_eq_mapValues, mapValues_eraseKey, mapValues_eraseKey, mapValues_eraseKey,
      ← decodeFields_eq_mapValues, decodeFields_stripAPIEntries kvs]

theorem decodeList_stripAPIList : ∀ xs : JsonList,
    decodeList (stripAPIList xs) = stripAPIList (decodeList xs)
  | .nil => rfl
  | .cons x xs => by
    simp only [stripAPIList, decodeList, decodeJson_stripAPIFields x,
      decodeList_stripAPIList xs]

theorem decodeFields_stripAPIEntries : ∀ kvs : JsonFields,
    decodeFields (stripAPIEntries kvs) = stripAPIEntries (decodeFields kvs)
  | .nil => rfl
  | .cons k v rest => by
    by_cases hk : k = "children" ∨ k = "conditions"
    · simp only [stripAPIEntries, decodeFields, if_pos hk, decodeJson_stripAPIChild v,
        decodeFields_stripAPIEntries rest]
    · simp only [stripAPIEntries, decodeFields, if_neg hk, decodeFields_stripAPIEntries rest]

theorem decodeJson_stripAPIChild : ∀ v : Json,
    decodeJson (stripAPIChild v) = stripAPIChild (decodeJson v)
  | .null | .bool _ | .num _ | .str _ | .obj _ => rfl
  | .arr xs => by
    simp only [stripAPIChild, decodeJson, decodeList_stripAPIList xs]
end

-- float64 decoding commutes with recursive key sorting (sorting only permutes
-- keys, decoding only rewrites values).
mutual
theorem decodeJson_sortKeysJson : ∀ j : Json,
    decodeJson (sortKeysJson j) = sortKeysJson (decodeJson j)
  | .null | .bool _ | .num _ | .str _ => rfl
  | .arr xs => by
    simp only [sortKeysJson, decodeJson, decodeList_sortKeysList xs]
  | .obj kvs => by
    simp only [sortKeysJson, decodeJson]
    rw [decodeFields_eq_mapValues, mapValues_sortFields, ← decodeFields_eq_mapValues,
      decodeFields_sortKeysFields kvs]

theorem decodeList_sortKeysList : ∀ xs : JsonList,
    decodeList (sortKeysList xs) = sortKeysList (decodeList xs)
  | .nil => rfl
  | .cons x xs => by
    simp only [sortKeysList, decodeList, decodeJson_sortKeysJson x, decodeList_sortKeysList xs]

theorem decodeFields_sortKeysFields : ∀ kvs : JsonFields,
    decodeFields (sortKeysFields kvs) = sortKeysFields (decodeFields kvs)
  | .nil => rfl
  | .cons k v rest => by
    simp only [sortKeysFields, decodeFields, decodeJson_sortKeysJson v,
      decodeFields_sortKeysFields rest]
end

/-- The canonical form is a fixed point of canonicalization. -/
theorem canonJson_idem (x : Json) : canonJson (canonJson x) = canonJson x := by
  simp only [canonJson]
  rw [decodeJson_sortKeysJson, decodeJson_stripAPIFields, decodeJson_idem,
    stripAPIFields_sortKeysJson, stripAPIFields_idem, sortKeysJson_idem]

/-- The canonical form of an array is a fixed point of canonicalization. -/
theorem canonJsonList_idem (xs : JsonList) :
    canonJsonList (canonJsonList xs) = canonJsonList xs := by
  simp only [canonJsonList]
  rw [decodeList_sortKeysList, decodeList_stripAPIList, decodeList_idem,
    stripAPIList_sortKeysList, stripAPIList_idem, sortKeysList_idem]

/-- C6: canonicalization is idempotent — re-normalizing the already normalized
document (the canonical token tree whose keys are sorted, whose numbers are
float64-decoded and whose id/parentId/conditionParentId fields are recursively
removed) yields the identical canonical string, both for single documents
(`normalizeRawJSON`) and for arrays (`normalizeRawJSONArray`). -/
theorem canonicalize_idempotent (x : Json) (xs : JsonList) :
    normalizeRawJSON (canonJson x) = normalizeRawJSON x ∧
    normalizeRawJSONArray (canonJsonList xs) = normalizeRawJSONArray xs := by
  constructor
  · simp only [normalizeRawJSON]
    rw [canonJson_idem]
  · simp only [normalizeRawJSONArray]
    rw [canonJsonList_idem]

-- ## C5 machinery: when does the alias round trip hold

/-- String append acts as list append on the character data. -/
theorem strData_append : ∀ x y : String, (x ++ y).data = x.data ++ y.data
  | ⟨_⟩, ⟨_⟩ => rfl

/-- A string is its character data. -/
theorem strMk_data : ∀ s : String, String.mk s.data = s
  | ⟨_⟩ => rfl

/-- Prefix test cancels a common left factor. -/
theorem isPrefixOf_append_cancel : ∀ a b c : List Char,
    (a ++ b).isPrefixOf (a ++ c) = b.isPrefixOf c
  | [], _, _ => rfl
  | x :: xs, b, c => by simp [List.isPrefixOf, isPrefixOf_append_cancel xs b c]

/-- Every list is a prefix of itself followed by anything. -/
theorem isPrefixOf_append_self (a r : List Char) : a.isPrefixOf (a ++ r) = true := by
  have h := isPrefixOf_append_cancel a [] r
  simpa using h

/-- A prefix test fails when the heads differ. -/
theorem isPrefixOf_false_of_head_ne (c d : Char) (h : c ≠ d) (p w : List Char) :
    (c :: p).isPrefixOf (d :: w) = false := by
  simp [List.isPrefixOf, h]

/-- A pattern starting with a left brace never fires on a brace-free list,
whatever the fuel. -/
theorem replaceCharsAux_braceFree (q rep : List Char) :
    ∀ (fuel : Nat) (s : List Char), lbrace ∉ s →
      replaceCharsAux (lbrace :: q) rep fuel s = s
  | 0, _, _ => rfl
  | _ + 1, [], _ => rfl
  | fuel + 1, c :: rest, h => by
    have hc : lbrace ≠ c := fun e => h (e ▸ List.mem_cons_self c rest)
    have hpre : (lbrace :: q).isPrefixOf (c :: rest) = false :=
      isPrefixOf_false_of_head_ne lbrace c hc q rest
    simp only [replaceCharsAux, hpre]
    rw [if_neg (by simp)]
    exact congrArg (c :: ·)
      (replaceCharsAux_braceFree q rep fuel rest (fun e => h (List.mem_cons_of_mem c e)))

/-- A nonempty pattern starting with a left brace is no prefix of a brace-free
list. -/
theorem isPrefixOf_lbrace_false (q : List Char) :
    ∀ w : List Char, lbrace ∉ w → (lbrace :: q).isPrefixOf w = false
  | [], _ => rfl
  | c :: rest, h =>
    isPrefixOf_false_of_head_ne lbrace c (fun e => h (e ▸ List.mem_cons_self c rest)) q rest

/-- Anchored no-fire: on `\x7b\x7bw` with `w` brace-free, a double-brace
pattern whose body is no prefix of `w` never fires. -/
theorem replaceCharsAux_anchored_nofire (q rep : List Char) (w : List Char)
    (hw : lbrace ∉ w) (hq : q.isPrefixOf w = false) :
    ∀ fuel : Nat,
      replaceCharsAux (lbrace :: lbrace :: q) rep fuel (lbrace :: lbrace :: w)
        = lbrace :: lbrace :: w := by
  intro fuel
  match fuel with
  | 0 => rfl
  | fuel + 1 =>
    have hpre : (lbrace :: lbrace :: q).isPrefixOf (lbrace :: lbrace :: w) = false := by
      simpa [List.isPrefixOf] using hq
    simp only [replaceCharsAux, hpre]
    rw [if_neg (by simp)]
    refine congrArg (lbrace :: ·) ?_
    match fuel with
    | 0 => rfl
    | fuel + 1 =>
      have hpre2 : (lbrace :: lbrace :: q).isPrefixOf (lbrace :: w) = false := by
        have := isPrefixOf_lbrace_false q w hw
        simpa [List.isPrefixOf] using this
      simp only [replaceCharsAux, hpre2]
      rw [if_neg (by simp)]
      exact congrArg (lbrace :: ·) (replaceCharsAux_braceFree (lbrace :: q) rep fuel w hw)

/-- Anchored fire: on `PAT ++ r` with `r` brace-free, a double-brace pattern
fires exactly once, at the front. -/
theorem replaceCharsAux_anchored_fire (q rep r : List Char) (hr : lbrace ∉ r) :
    ∀ fuel : Nat, 1 ≤ fuel →
      replaceCharsAux (lbrace :: lbrace :: q) rep fuel ((lbrace :: lbrace :: q) ++ r)
        = rep ++ r := by
  intro fuel hfuel
  match fuel, hfuel with
  | fuel + 1, _ =>
    have hpre : (lbrace :: lbrace :: q).isPrefixOf ((lbrace :: lbrace :: q) ++ r) = true :=
      isPrefixOf_append_self _ r
    simp only [replaceCharsAux]
    rw [if_pos ⟨by simp, by simpa [List.isPrefixOf] using hpre⟩]
    rw [show (lbrace :: (lbrace :: q).append r) = (lbrace :: lbrace :: q) ++ r from rfl]
    rw [List.drop_left]
    rw [replaceCharsAux_braceFree (lbrace :: q) rep fuel r hr]

/-- No-fire lift to `replaceStr` for an anchored double-brace string. -/
theorem replaceStr_nofire (s pat rep : String) (w q : List Char)
    (hs : s.data = lbrace :: lbrace :: w) (hw : lbrace ∉ w)
    (hp : pat.data = lbrace :: lbrace :: q) (hq : q.isPrefixOf w = false) :
    replaceStr s pat rep = s := by
  simp only [replaceStr, replaceCharList, hs, hp]
  rw [replaceCharsAux_anchored_nofire q rep.data w hw hq, ← hs, strMk_data]

/-- No-fire lift to `replaceStr` for a brace-free subject. -/
theorem replaceStr_plain (s pat rep : String) (q : List Char)
    (hp : pat.data = lbrace :: q) (hs : braceFree s) : replaceStr s pat rep = s := by
  simp only [replaceStr, replaceCharList, hp]
  rw [replaceCharsAux_braceFree q rep.data s.data.length s.data hs, strMk_data]

/-- Fire lift to `replaceStr`: the pattern at the front is replaced and the
brace-free remainder is untouched. -/
theorem replaceStr_fire (pat rep r : String) (hr : braceFree r) (q : List Char)
    (hp : pat.data = lbrace :: lbrace :: q) :
    replaceStr (pat ++ r) pat rep = rep ++ r := by
  simp only [replaceStr, replaceCharList, strData_append, hp]
  rw [replaceCharsAux_anchored_fire q rep.data r.data hr _ (by simp), ← strData_append,
    strMk_data]

/-- Character data of the built issue pattern. -/
theorem data_issue_pattern (a : String) :
    ("\x7b\x7bissue." ++ a).data = lbrace :: lbrace :: ("issue." ++ a).data := by
  rw [strData_append, strData_append,
    show "\x7b\x7bissue.".data = lbrace :: lbrace :: "issue.".data from by decide]
  rfl

/-- Character data of the built triggerIssue pattern. -/
theorem data_trigger_pattern (a : String) :
    ("\x7b\x7btriggerIssue." ++ a).data
      = lbrace :: lbrace :: ("triggerIssue." ++ a).data := by
  rw [strData_append, strData_append,
    show "\x7b\x7btriggerIssue.".data = lbrace :: lbrace :: "triggerIssue.".data from by decide]
  rfl

/-- `issue.` has no brace. -/
theorem braceFree_issue : lbrace ∉ "issue.".data := by decide

/-- `triggerIssue.` has no brace. -/
theorem braceFree_trigger : lbrace ∉ "triggerIssue.".data := by decide

/-- No brace in an append of brace-free lists. -/
theorem lbrace_not_mem_append {xs ys : List Char} (hx : lbrace ∉ xs) (hy : lbrace ∉ ys) :
    lbrace ∉ xs ++ ys := by
  intro h
  rcases List.mem_append.mp h with h | h
  · exact hx h
  · exact hy h

/-- A triggerIssue pattern is no prefix of an issue-led list. -/
theorem isPrefixOf_ti_on_i (a : String) (w : List Char) :
    ("triggerIssue." ++ a).data.isPrefixOf ("issue.".data ++ w) = false := by
  rw [strData_append, show "triggerIssue.".data = 't' :: "riggerIssue.".data from by decide,
    show "issue.".data = 'i' :: "ssue.".data from by decide]
  simp only [List.cons_append]
  exact isPrefixOf_false_of_head_ne 't' 'i' (by decide) _ _

/-- An issue pattern is no prefix of a triggerIssue-led list. -/
theorem isPrefixOf_i_on_ti (a : String) (w : List Char) :
    ("issue." ++ a).data.isPrefixOf ("triggerIssue.".data ++ w) = false := by
  rw [strData_append, show "issue.".data = 'i' :: "ssue.".data from by decide,
    show "triggerIssue.".data = 't' :: "riggerIssue.".data from by decide]
  simp only [List.cons_append]
  exact isPrefixOf_false_of_head_ne 'i' 't' (by decide) _ _

/-- Prefix test of two issue patterns reduces to their bodies. -/
theorem isPrefixOf_issue_cancel (a : String) (w : List Char) :
    ("issue." ++ a).data.isPrefixOf ("issue.".data ++ w) = a.data.isPrefixOf w := by
  rw [strData_append, isPrefixOf_append_cancel]

/-- Prefix test of two triggerIssue patterns reduces to their bodies. -/
theorem isPrefixOf_trigger_cancel (a : String) (w : List Char) :
    ("triggerIssue." ++ a).data.isPrefixOf ("triggerIssue.".data ++ w)
      = a.data.isPrefixOf w := by
  rw [strData_append, isPrefixOf_append_cancel]

/-- On a brace-free value `replaceSmartValueField` is the identity. -/
theorem rsvf_plain (s a b : String) (hs : braceFree s) :
    replaceSmartValueField s a b = s := by
  simp only [replaceSmartValueField]
  rw [replaceStr_plain s _ _ (lbrace :: ("issue." ++ a).data) (data_issue_pattern a) hs,
    replaceStr_plain s _ _ (lbrace :: ("triggerIssue." ++ a).data) (data_trigger_pattern a) hs]

/-- On a single anchored smart value whose body extends neither pattern body,
`replaceSmartValueField` is the identity. -/
theorem rsvf_nofire (s : String) (w : List Char) (hs : s.data = lbrace :: lbrace :: w)
    (hw : lbrace ∉ w) (a b : String)
    (h1 : ("issue." ++ a).data.isPrefixOf w = false)
    (h2 : ("triggerIssue." ++ a).data.isPrefixOf w = false) :
    replaceSmartValueField s a b = s := by
  simp only [replaceSmartValueField]
  rw [replaceStr_nofire s _ _ w (("issue." ++ a).data) hs hw (data_issue_pattern a) h1,
    replaceStr_nofire s _ _ w (("triggerIssue." ++ a).data) hs hw (data_trigger_pattern a) h2]

/-- The designated alias fires on an issue-led smart value. -/
theorem rsvf_fire_issue (nm f r : String) (hr : braceFree r) (hf : braceFree f) :
    replaceSmartValueField ("\x7b\x7bissue." ++ nm ++ r) nm f
      = "\x7b\x7bissue." ++ f ++ r := by
  simp only [replaceSmartValueField]
  rw [replaceStr_fire ("\x7b\x7bissue." ++ nm) ("\x7b\x7bissue." ++ f) r hr _
    (data_issue_pattern nm)]
  have hs1 : (("\x7b\x7bissue." ++ f) ++ r).data
      = lbrace :: lbrace :: (("issue." ++ f).data ++ r.data) := by
    rw [strData_append, data_issue_pattern f]
    rfl
  have hw1 : lbrace ∉ ("issue." ++ f).data ++ r.data :=
    lbrace_not_mem_append
      (by rw [strData_append]; exact lbrace_not_mem_append braceFree_issue hf) hr
  have hq1 : ("triggerIssue." ++ nm).data.isPrefixOf (("issue." ++ f).data ++ r.data)
      = false := by
    rw [strData_append, strData_append, List.append_assoc]
    exact isPrefixOf_ti_on_i nm _
  rw [replaceStr_nofire _ _ _ _ _ hs1 hw1 (data_trigger_pattern nm) hq1]

/-- The designated alias fires on a triggerIssue-led smart value. -/
theorem rsvf_fire_trigger (nm f r : String) (hr : braceFree r) (hf : braceFree f)
    (hnm : braceFree nm) :
    replaceSmartValueField ("\x7b\x7btriggerIssue." ++ nm ++ r) nm f
      = "\x7b\x7btriggerIssue." ++ f ++ r := by
  simp only [replaceSmartValueField]
  have hs1 : (("\x7b\x7btriggerIssue." ++ nm) ++ r).data
      = lbrace :: lbrace :: (("triggerIssue." ++ nm).data ++ r.data) := by
    rw [strData_append, data_trigger_pattern nm]
    rfl
  have hw1 : lbrace ∉ ("triggerIssue." ++ nm).data ++ r.data :=
    lbrace_not_mem_append
      (by rw [strData_append]; exact lbrace_not_mem_append braceFree_trigger hnm) hr
  have hq1 : ("issue." ++ nm).data.isPrefixOf (("triggerIssue." ++ nm).data ++ r.data)
      = false := by
    rw [strData_append, strData_append, List.append_assoc]
    exact isPrefixOf_i_on_ti nm _
  rw [replaceStr_nofire _ _ _ _ _ hs1 hw1 (data_issue_pattern nm) hq1]
  rw [replaceStr_fire ("\x7b\x7btriggerIssue." ++ nm) ("\x7b\x7btriggerIssue." ++ f) r hr _
    (data_trigger_pattern nm)]

/-- A key different from every key of the map looks up to nothing. -/
theorem lookupArg_none_of_forall_ne (s : String) : ∀ l : ArgMap,
    (∀ p ∈ l, p.1 ≠ s) → lookupArg l s = none
  | [], _ => rfl
  | (k, v) :: rest, h => by
    have hk : k ≠ s := h (k, v) (List.mem_cons_self _ _)
    simp only [lookupArg, if_neg hk]
    exact lookupArg_none_of_forall_ne s rest (fun p hp => h p (List.mem_cons_of_mem _ hp))

/-- A successful lookup comes from a pair of the map. -/
theorem lookupArg_mem (k x : String) : ∀ l : ArgMap, lookupArg l k = some x → (k, x) ∈ l
  | [], h => by simp [lookupArg] at h
  | (k', v) :: rest, h => by
    by_cases hk : k' = k
    · subst hk
      simp [lookupArg] at h
      subst h
      exact List.mem_cons_self _ _
    · simp only [lookupArg, if_neg hk] at h
      exact List.mem_cons_of_mem _ (lookupArg_mem k x rest h)

/-- With pairwise-distinct keys, membership determines the lookup. -/
theorem lookupArg_nodup_mem (k x : String) : ∀ l : ArgMap,
    (l.map Prod.fst).Nodup → (k, x) ∈ l → lookupArg l k = some x
  | [], _, hm => absurd hm (List.not_mem_nil _)
  | (k', v) :: rest, hnd, hm => by
    simp only [List.map_cons, List.nodup_cons] at hnd
    rcases List.mem_cons.mp hm with h | h
    · cases h
      simp [lookupArg]
    · have hk : k' ≠ k := by
        intro e
        subst e
        exact hnd.1 (List.mem_map_of_mem Prod.fst h)
      simp only [lookupArg, if_neg hk]
      exact lookupArg_nodup_mem k x rest hnd.2 h

/-- A value starting with a brace never looks up in a brace-free-keyed map. -/
theorem lookup_braced_none (t : ArgMap) (v : String) (w : List Char)
    (hv : v.data = lbrace :: w) (hbf : ∀ p ∈ t, braceFree p.1) : lookupArg t v = none := by
  apply lookupArg_none_of_forall_ne
  intro p hp he
  exact (he ▸ hbf p hp) (by rw [hv]; exact List.mem_cons_self _ _)

/-- The keys of the inverted table are the field IDs. -/
theorem invert_keys (t : ArgMap) : (invertAliases t).map Prod.fst = t.map Prod.snd := by
  simp [invertAliases, List.map_map]

/-- The values of the inverted table are the alias names. -/
theorem invert_values (t : ArgMap) : (invertAliases t).map Prod.snd = t.map Prod.fst := by
  simp [invertAliases, List.map_map]

/-- Membership flips under inversion. -/
theorem invert_mem {t : ArgMap} {nm f : String} (h : (nm, f) ∈ t) :
    (f, nm) ∈ invertAliases t :=
  List.mem_map.mpr ⟨(nm, f), h, rfl⟩

/-- `sortedKeys` is a permutation of the key list. -/
theorem sortedKeys_perm (m : ArgMap) : List.Perm (sortedKeys m) (m.map Prod.fst) :=
  List.perm_insertionSort _ _

/-- A fold of no-fire replacements fixes the value. -/
theorem foldl_rsvf_fix (t : ArgMap) (s : String) :
    ∀ ns : List String, (∀ nm ∈ ns, replaceSmartValueField s nm (getArg t nm) = s) →
      ns.foldl (fun acc nm => replaceSmartValueField acc nm (getArg t nm)) s = s
  | [], _ => rfl
  | n :: rest, h => by
    rw [List.foldl_cons, h n (List.mem_cons_self _ _)]
    exact foldl_rsvf_fix t s rest (fun x hx => h x (List.mem_cons_of_mem _ hx))

/-- A fold in which exactly the designated alias fires (once) and every other
alias fires neither before nor after rewrites the value exactly once. -/
theorem foldl_rsvf_once (t : ArgMap) (v v' nm : String)
    (hfire : replaceSmartValueField v nm (getArg t nm) = v') :
    ∀ ns : List String, ns.Nodup → nm ∈ ns →
      (∀ x ∈ ns, x ≠ nm → replaceSmartValueField v x (getArg t x) = v ∧
        replaceSmartValueField v' x (getArg t x) = v') →
      ns.foldl (fun acc x => replaceSmartValueField acc x (getArg t x)) v = v'
  | [], _, hmem, _ => absurd hmem (List.not_mem_nil nm)
  | n :: rest, hnd, hmem, h => by
    rcases List.nodup_cons.mp hnd with ⟨hnin, hnd'⟩
    by_cases hn : n = nm
    · subst hn
      rw [List.foldl_cons, hfire]
      apply foldl_rsvf_fix t v' rest
      intro x hx
      have hxn : x ≠ n := fun e => hnin (e ▸ hx)
      exact (h x (List.mem_cons_of_mem _ hx) hxn).2
    · rw [List.foldl_cons, (h n (List.mem_cons_self _ _) hn).1]
      have hmem' : nm ∈ rest := by
        rcases List.mem_cons.mp hmem with e | e
        · exact absurd e.symm hn
        · exact e
      exact foldl_rsvf_once t v v' nm hfire rest hnd' hmem'
        (fun x hx hxn => h x (List.mem_cons_of_mem _ hx) hxn)

/-- Character data of a braced smart value. -/
theorem data_braced (lead a r : String) :
    ("\x7b\x7b" ++ lead ++ a ++ r).data
      = lbrace :: lbrace :: (lead.data ++ (a.data ++ r.data)) := by
  rw [strData_append, strData_append, strData_append,
    show "\x7b\x7b".data = [lbrace, lbrace] from by decide, List.append_assoc,
    List.append_assoc]
  rfl

/-- A non-colliding alias never fires on a braced smart value. -/
theorem rsvf_nofire_braced (lead x b a r : String)
    (hlead : lead = "issue." ∨ lead = "triggerIssue.")
    (ha : braceFree a) (hr : braceFree r)
    (hpre : x.data.isPrefixOf (a ++ r).data = false) :
    replaceSmartValueField ("\x7b\x7b" ++ lead ++ a ++ r) x b
      = "\x7b\x7b" ++ lead ++ a ++ r := by
  have hw : lbrace ∉ lead.data := by
    rcases hlead with e | e <;> subst e
    · exact braceFree_issue
    · exact braceFree_trigger
  have hpre' : x.data.isPrefixOf (a.data ++ r.data) = false := by
    have h := hpre
    rw [strData_append] at h
    exact h
  refine rsvf_nofire _ (lead.data ++ (a.data ++ r.data)) (data_braced lead a r)
    (lbrace_not_mem_append hw (lbrace_not_mem_append ha hr)) x b ?_ ?_
  · rcases hlead with e | e <;> subst e
    · rw [isPrefixOf_issue_cancel]
      exact hpre'
    · exact isPrefixOf_i_on_ti x _
  · rcases hlead with e | e <;> subst e
    · exact isPrefixOf_ti_on_i x _
    · rw [isPrefixOf_trigger_cancel]
      exact hpre'

/-- The designated alias rewrites a braced smart value exactly. -/
theorem rsvf_fire_braced (lead nm f r : String)
    (hlead : lead = "issue." ∨ lead = "triggerIssue.")
    (hr : braceFree r) (hf : braceFree f) (hnm : braceFree nm) :
    replaceSmartValueField ("\x7b\x7b" ++ lead ++ nm ++ r) nm f
      = "\x7b\x7b" ++ lead ++ f ++ r := by
  rcases hlead with e | e <;> subst e
  · rw [show ("\x7b\x7b" : String) ++ "issue." = "\x7b\x7bissue." from by decide]
    exact rsvf_fire_issue nm f r hr hf
  · rw [show ("\x7b\x7b" : String) ++ "triggerIssue." = "\x7b\x7btriggerIssue." from by decide]
    exact rsvf_fire_trigger nm f r hr hf hnm

/-- `unresolveAliases`'s per-value body is the same function as
`resolveAliases`'s (the Go bodies are verbatim copies). -/
theorem unresolveValue_eq_resolveValue : unresolveValue = resolveValue := rfl

/-- A brace-free value passes the smart-value fold untouched and is then
bare-replaced by a successful lookup. -/
theorem resolveValue_plain_some (t : ArgMap) (v f : String) (hv : braceFree v)
    (h : lookupArg t v = some f) : resolveValue t v = f := by
  simp only [resolveValue]
  rw [foldl_rsvf_fix t v (sortedKeys t) (fun nm _ => rsvf_plain v nm (getArg t nm) hv), h]

/-- A brace-free value that is no alias name survives `resolveValue`. -/
theorem resolveValue_plain_none (t : ArgMap) (v : String) (hv : braceFree v)
    (h : lookupArg t v = none) : resolveValue t v = v := by
  simp only [resolveValue]
  rw [foldl_rsvf_fix t v (sortedKeys t) (fun nm _ => rsvf_plain v nm (getArg t nm) hv), h]

/-- On a collision-free smart value, `resolveValue` substitutes exactly the
designated alias. -/
theorem resolveValue_smart (t : ArgMap) (lead nm f r : String)
    (hnd : (t.map Prod.fst).Nodup)
    (hlead : lead = "issue." ∨ lead = "triggerIssue.")
    (hmem : (nm, f) ∈ t)
    (hr : braceFree r) (hf : braceFree f) (hnm : braceFree nm)
    (hkbf : ∀ p ∈ t, braceFree p.1)
    (hno : ∀ x ∈ t.map Prod.fst, x ≠ nm →
      x.data.isPrefixOf (nm ++ r).data = false ∧ x.data.isPrefixOf (f ++ r).data = false) :
    resolveValue t ("\x7b\x7b" ++ lead ++ nm ++ r) = "\x7b\x7b" ++ lead ++ f ++ r := by
  have hget : getArg t nm = f := by
    simp [getArg, lookupArg_nodup_mem nm f t hnd hmem]
  have hfire : replaceSmartValueField ("\x7b\x7b" ++ lead ++ nm ++ r) nm (getArg t nm)
      = "\x7b\x7b" ++ lead ++ f ++ r := by
    rw [hget]
    exact rsvf_fire_braced lead nm f r hlead hr hf hnm
  have hfold := foldl_rsvf_once t _ _ nm hfire (sortedKeys t)
    ((sortedKeys_perm t).nodup_iff.mpr hnd)
    ((sortedKeys_perm t).mem_iff.mpr (List.mem_map_of_mem Prod.fst hmem))
    (fun x hx hxn => by
      obtain ⟨h1, h2⟩ := hno x ((sortedKeys_perm t).mem_iff.mp hx) hxn
      exact ⟨rsvf_nofire_braced lead x (getArg t x) nm r hlead hnm hr h1,
        rsvf_nofire_braced lead x (getArg t x) f r hlead hf hr h2⟩)
  simp only [resolveValue]
  rw [hfold, lookup_braced_none t _ (lbrace :: (lead.data ++ (f.data ++ r.data)))
    (by rw [data_braced]) hkbf]

/-- One value round-trips through resolve then unresolve. -/
theorem roundValue (t : ArgMap) (ht : TableOK t) (v : String) (hv : ValueOK t v) :
    unresolveValue (invertAliases t) (resolveValue t v) = v := by
  obtain ⟨hne, hkn, hvn, hprops⟩ := ht
  have hkbf : ∀ p ∈ t, braceFree p.1 := fun p hp => (hprops p hp).2.2.1
  have hvbf : ∀ p ∈ t, braceFree p.2 := fun p hp => (hprops p hp).2.2.2
  have hikn : ((invertAliases t).map Prod.fst).Nodup := by
    rw [invert_keys]
    exact hvn
  have hikbf : ∀ p ∈ invertAliases t, braceFree p.1 := by
    intro p hp
    rcases List.mem_map.mp hp with ⟨q, hq, rfl⟩
    exact hvbf q hq
  rw [unresolveValue_eq_resolveValue]
  rcases hv with ⟨hbf, himp⟩ | ⟨lead, nm, f, r, hlead, hmem, hr, hveq, hnoK, hnoV⟩
  · cases hcase : lookupArg t v with
    | some f =>
      rw [resolveValue_plain_some t v f hbf hcase]
      have hmem : (v, f) ∈ t := lookupArg_mem v f t hcase
      have hfbf : braceFree f := hvbf (v, f) hmem
      exact resolveValue_plain_some (invertAliases t) f v hfbf
        (lookupArg_nodup_mem f v (invertAliases t) hikn (invert_mem hmem))
    | none =>
      rw [resolveValue_plain_none t v hbf hcase]
      apply resolveValue_plain_none (invertAliases t) v hbf
      apply lookupArg_none_of_forall_ne
      intro p hp
      rcases List.mem_map.mp hp with ⟨q, hq, rfl⟩
      exact fun e => (himp hcase q hq) e.symm
  · subst hveq
    have hnmbf : braceFree nm := hkbf (nm, f) hmem
    have hfbf : braceFree f := hvbf (nm, f) hmem
    rw [resolveValue_smart t lead nm f r hkn hlead hmem hr hfbf hnmbf hkbf
      (fun x hx hxn => by
        rcases List.mem_map.mp hx with ⟨q, hq, rfl⟩
        exact hnoK q hq hxn)]
    apply resolveValue_smart (invertAliases t) lead f nm r hikn hlead
      (invert_mem hmem) hr hnmbf hfbf hikbf
    intro x hx hxf
    rw [invert_keys] at hx
    rcases List.mem_map.mp hx with ⟨q, hq, rfl⟩
    obtain ⟨hA, hB⟩ := hnoV q hq hxf
    exact ⟨hB, hA⟩

/-- The per-entry round trip lifted over an argument map. -/
theorem roundArgs (t : ArgMap) (ht : TableOK t) :
    ∀ l : ArgMap, (∀ p ∈ l, ValueOK t p.2) →
      l.map (fun kv => (kv.1, unresolveValue (invertAliases t) (resolveValue t kv.2))) = l
  | [], _ => rfl
  | (k, v) :: rest, h => by
    simp only [List.map_cons]
    rw [roundValue t ht v (h (k, v) (List.mem_cons_self _ _)),
      roundArgs t ht rest (fun q hq => h q (List.mem_cons_of_mem _ hq))]

/-- C5 (amended): for every nonempty non-conflicting alias table (pairwise
distinct, nonempty, brace-free alias names and field IDs) and every argument
map whose values are each either brace-free values that do not collide with a
field ID (unless they are an alias name) or single prefix-collision-free
smart values, applying `resolveAliases` and then `unresolveAliases` with the
inverted table returns the original map. -/
theorem alias_roundTrip (args t : ArgMap) (ht : TableOK t)
    (hv : ∀ p ∈ args, ValueOK t p.2) :
    unresolveAliases (resolveAliases args t) (invertAliases t) = args := by
  have hne : t ≠ [] := ht.1
  have hinv : invertAliases t ≠ [] := fun e => hne (List.map_eq_nil_iff.mp e)
  simp only [resolveAliases, unresolveAliases]
  rw [if_neg hne, if_neg hinv, List.map_map]
  exact roundArgs t ht args hv

/-- C5 counterexample: a bare value that happens to equal a field ID is not
restored by the round trip — it comes back as the alias name. -/
theorem alias_roundTrip_counterexample :
    unresolveAliases
        (resolveAliases [("field", "customfield_10709")]
          [("release_version", "customfield_10709")])
        (invertAliases [("release_version", "customfield_10709")])
      = [("field", "release_version")] ∧
    [("field", "release_version")] ≠ [("field", "customfield_10709")] := by
  constructor
  · rfl
  · decide

/-- Concrete instance of the amended C5 round trip: a smart value, a plain
value and a bare alias-name value all survive. -/
theorem alias_roundTrip_witness :
    unresolveAliases
        (resolveAliases
          [("field", "\x7b\x7bissue.release_version\x7d\x7d"), ("other", "plain"),
            ("nm", "release_version")]
          [("release_version", "customfield_10709")])
        (invertAliases [("release_version", "customfield_10709")])
      = [("field", "\x7b\x7bissue.release_version\x7d\x7d"), ("other", "plain"),
          ("nm", "release_version")] := by
  apply alias_roundTrip
  · exact ⟨by decide, by decide, by decide, by decide⟩
  · intro p hp
    simp only [List.mem_cons, List.not_mem_nil, or_false] at hp
    rcases hp with h | h | h <;> subst h
    · right
      refine ⟨"issue.", "release_version", "customfield_10709", "\x7d\x7d", Or.inl rfl,
        by decide, by decide, by decide, ?_, ?_⟩
      · intro p hp hne
        simp only [List.mem_cons, List.not_mem_nil, or_false] at hp
        subst hp
        exact absurd rfl hne
      · intro p hp hne
        simp only [List.mem_cons, List.not_mem_nil, or_false] at hp
        subst hp
        exact absurd rfl hne
    · left
      exact ⟨by decide, by decide⟩
    · left
      refine ⟨by decide, fun hlook => ?_⟩
      rw [show lookupArg [("release_version", "customfield_10709")] "release_version"
        = some "customfield_10709" from by decide] at hlook
      cases hlook
